import Mathlib

/-!
ChatHub conversation document engine.

A shallow embedding of `internal/frontmatter` and `internal/tools` of
`grokify/chathub`, and the properties its specification states about them.

Go strings and byte slices hold UTF-8 text; they are modelled by the sequence
of runes Go decodes from them (`List Char`).  Byte lengths are computed with
the UTF-8 width of each rune.  The result of a byte slice whose bounds may fall
within a rune is modelled by its runes and its stray bytes (`List Piece`).
-/

namespace ChatHub

/-! ## Strings -/

/-- Byte length of a Go string, `len(s)`: the sum of the UTF-8 widths of its runes. -/
def len (s : List Char) : Nat :=
  (s.map Char.utf8Size).sum

/-- Lower-casing of one rune, `unicode.ToLower`: ASCII letters are shifted by
`'a' - 'A'`, other ASCII runes are unchanged, and a rune above `MaxASCII` is
looked up in the Unicode case table of the Go library (`caseTable`). -/
def toLowerRune (caseTable : Char → Char) (r : Char) : Char :=
  if r.toNat ≤ 127 then
    if 'A'.toNat ≤ r.toNat ∧ r.toNat ≤ 'Z'.toNat then Char.ofNat (r.toNat + 32) else r
  else caseTable r

/-- Rune-wise lower-casing of a string, `strings.ToLower`. -/
def ToLower (caseTable : Char → Char) (s : List Char) : List Char :=
  s.map (toLowerRune caseTable)

/-- The class `\s` of Go regular expressions: tab, newline, form feed, carriage return, space. -/
def isRegexSpace (r : Char) : Bool :=
  r.toNat = 9 || r.toNat = 10 || r.toNat = 12 || r.toNat = 13 || r.toNat = 32

/-- A rune matched by `slugRegex`, the negated class `[^a-z0-9\s-]`. -/
def slugRegexMatch (r : Char) : Bool :=
  !(('a'.toNat ≤ r.toNat && r.toNat ≤ 'z'.toNat) || ('0'.toNat ≤ r.toNat && r.toNat ≤ '9'.toNat)
    || isRegexSpace r || r = '-')

/-- A rune of the class `[\s_]` that `whitespaceRegex` repeats. -/
def whitespaceRegexMatch (r : Char) : Bool :=
  isRegexSpace r || r = '_'

/-- Replacement of every match of a one-rune class by the empty string:
`slugRegex.ReplaceAllString(s, "")`. -/
def deleteMatches (cls : Char → Bool) : List Char → List Char
  | [] => []
  | r :: rs => if cls r then deleteMatches cls rs else r :: deleteMatches cls rs

/-- Replacement of every maximal run of runes of a class by `repl`:
`regexp.MustCompile("[cls]+").ReplaceAllString(s, repl)`.  The flag tells whether
the previous rune belonged to the run being replaced. -/
def replaceRuns {α : Type} (cls : α → Bool) (repl : List α) : Bool → List α → List α
  | _, [] => []
  | inRun, r :: rs =>
    if cls r then
      if inRun then replaceRuns cls repl true rs else repl ++ replaceRuns cls repl true rs
    else r :: replaceRuns cls repl false rs

/-- Removal of the leading runes equal to `c`: `strings.TrimLeft(s, c)` for a one-byte cutset. -/
def TrimLeft (s : List Char) (c : Char) : List Char :=
  s.dropWhile (fun r => r == c)

/-- Removal of the trailing runes equal to `c`: `strings.TrimRight(s, c)` for a one-byte cutset. -/
def TrimRight (s : List Char) (c : Char) : List Char :=
  (s.reverse.dropWhile (fun r => r == c)).reverse

/-- Removal of leading and trailing runes equal to `c`: `strings.Trim(s, c)`, which trims
the right end and then the left end. -/
def Trim (s : List Char) (c : Char) : List Char :=
  TrimLeft (TrimRight s c) c

/-! ## Slug and path derivation (`frontmatter.go`) -/

/-- The slug before the length limit: the first four statements of `GenerateSlug`. -/
def slugUnlimited (caseTable : Char → Char) (title : List Char) : List Char :=
  let slug := ToLower caseTable title
  let slug := deleteMatches slugRegexMatch slug
  let slug := replaceRuns whitespaceRegexMatch ['-'] false slug
  Trim slug '-'

/-- URL-friendly slug of a title, `GenerateSlug`.  At the length test the slug holds ASCII
runes only (`slugUnlimited_ascii`), so that the byte slice `slug[:50]` is its first 50 runes. -/
def GenerateSlug (caseTable : Char → Char) (title : List Char) : List Char :=
  let slug := slugUnlimited caseTable title
  if len slug > 50 then
    TrimRight (slug.take 50) '-'
  else slug


/-- The slug before the length limit in the words of the specification: the title lower-cased,
the runes that are not a lowercase letter, a digit, whitespace or a hyphen removed, every run of
whitespace replaced by one hyphen, and the outer hyphens trimmed.  The trimming is written with
the list functions `List.rdropWhile` and `List.dropWhile`. -/
def slugBeforeLimitSpec (caseTable : Char → Char) (title : List Char) : List Char :=
  let lowered := title.map (toLowerRune caseTable)
  let allowed := lowered.filter (fun r =>
    ('a'.toNat ≤ r.toNat && r.toNat ≤ 'z'.toNat) || ('0'.toNat ≤ r.toNat && r.toNat ≤ '9'.toNat)
      || isRegexSpace r || r = '-')
  let hyphenated := replaceRuns isRegexSpace ['-'] false allowed
  (hyphenated.rdropWhile (fun r => r == '-')).dropWhile (fun r => r == '-')

/-- A civil time as `time.Time` shows it through `Date()` and `Clock()` in its own location. -/
structure Time where
  year : Int
  month : Nat
  day : Nat
  hour : Nat
  minute : Nat
  second : Nat
  nanosecond : Nat
deriving DecidableEq, Repr

/-- Decimal digits of `u`, padded with zeros on the left to at least `width` digits. -/
def padDigits (u : Nat) (width : Nat) : List Char :=
  let digits := Nat.toDigits 10 u
  List.replicate (width - digits.length) '0' ++ digits

/-- Decimal form of an integer zero-padded to `width`, the helper `appendInt` of package `time`:
a minus sign for a negative value, then the padded digits of the magnitude. -/
def appendInt (x : Int) (width : Nat) : List Char :=
  if x < 0 then '-' :: padDigits x.natAbs width else padDigits x.natAbs width

/-- The layout "2006-01-02" of `Time.Format`: four-digit year, two-digit month, two-digit day. -/
def formatDate (date : Time) : List Char :=
  appendInt date.year 4 ++ ['-'] ++ appendInt date.month 2 ++ ['-'] ++ appendInt date.day 2

/-- File path of a conversation, `GeneratePath`: `{folder}/{source}/{date}_{slug}.md`. -/
def GeneratePath (caseTable : Char → Char) (folder source title : List Char) (date : Time) :
    List Char :=
  let slug := GenerateSlug caseTable title
  let dateStr := formatDate date
  folder ++ ['/'] ++ source ++ ['/'] ++ dateStr ++ ['_'] ++ slug ++ ['.', 'm', 'd']

/-- Unique conversation identifier, `GenerateConversationID`, from the clock reading
`time.Now().UnixNano()`. -/
def GenerateConversationID (unixNano : Int) : List Char :=
  ['c', 'o', 'n', 'v', '_'] ++ (toString unixNano).toList

/-! ## Source platforms -/

def SourceChatGPT : List Char := ['c', 'h', 'a', 't', 'g', 'p', 't']
def SourceClaude : List Char := ['c', 'l', 'a', 'u', 'd', 'e']
def SourceClaudeCode : List Char := ['c', 'l', 'a', 'u', 'd', 'e', '-', 'c', 'o', 'd', 'e']
def SourceGemini : List Char := ['g', 'e', 'm', 'i', 'n', 'i']
def SourcePerplexity : List Char := ['p', 'e', 'r', 'p', 'l', 'e', 'x', 'i', 't', 'y']
def SourceCodex : List Char := ['c', 'o', 'd', 'e', 'x']

/-- Whether a source is valid, `ValidSource`: the `switch` over the six constants. -/
def ValidSource (source : List Char) : Bool :=
  if source = SourceChatGPT ∨ source = SourceClaude ∨ source = SourceClaudeCode
      ∨ source = SourceGemini ∨ source = SourcePerplexity ∨ source = SourceCodex then true
  else false

/-! ## Strings that are not valid UTF-8

A Go string is a sequence of bytes.  The texts that reach the program are valid UTF-8 and are
held as their runes; a byte slice `s[a:b]` whose bounds fall within the encoding of a rune
holds bytes that are no valid encoding, and is held as pieces. -/

/-- One element of a string as Go decodes it: a rune, or a byte that is not part of a valid
encoding (which `range`, `strings.Fields` and `utf8.DecodeRuneInString` read as
`utf8.RuneError` of width 1 and copy unchanged). -/
inductive Piece where
  | rune (c : Char)
  | byte (b : Nat)
deriving DecidableEq, Repr

/-- The UTF-8 encoding of one rune, `utf8.AppendRune`. -/
def utf8EncodeRune (c : Char) : List Nat :=
  let v := c.toNat
  if v ≤ 0x7F then [v]
  else if v ≤ 0x7FF then [0xC0 + v / 64, 0x80 + v % 64]
  else if v ≤ 0xFFFF then [0xE0 + v / 4096, 0x80 + v / 64 % 64, 0x80 + v % 64]
  else [0xF0 + v / 262144, 0x80 + v / 4096 % 64, 0x80 + v / 64 % 64, 0x80 + v % 64]

/-- The bytes of a text, `[]byte(s)`. -/
def utf8Encode (s : List Char) : List Nat :=
  s.flatMap utf8EncodeRune

/-- The bytes of one piece. -/
def Piece.bytes : Piece → List Nat
  | Piece.rune c => utf8EncodeRune c
  | Piece.byte b => [b]

/-- The bytes of a string held as pieces. -/
def bytesOf (s : List Piece) : List Nat :=
  s.flatMap Piece.bytes

/-- A valid text as pieces: every piece is a rune. -/
def ofRunes (s : List Char) : List Piece :=
  s.map Piece.rune

/-- The byte slice `s[:n]`: the pieces within the first `n` bytes; of a rune that byte `n`
splits, the bytes before the cut remain, as bytes that are no valid encoding. -/
def takeBytes : Nat → List Piece → List Piece
  | _, [] => []
  | n, p :: ps =>
    if p.bytes.length ≤ n then p :: takeBytes (n - p.bytes.length) ps
    else (p.bytes.take n).map Piece.byte

/-- The byte slice `s[n:]`: of a rune that byte `n` splits, the bytes after the cut remain, as
bytes that are no valid encoding. -/
def dropBytes : Nat → List Piece → List Piece
  | 0, s => s
  | _ + 1, [] => []
  | n + 1, p :: ps =>
    if p.bytes.length ≤ n + 1 then dropBytes (n + 1 - p.bytes.length) ps
    else (p.bytes.drop (n + 1)).map Piece.byte ++ ps

/-- The byte slice `s[start:stop]` of a valid text, for `start <= stop <= len(s)`. -/
def sliceBytes (start stop : Nat) (s : List Char) : List Piece :=
  takeBytes (stop - start) (dropBytes start (ofRunes s))

/-! ## Metadata codec (`frontmatter.go`) -/

/-- Hugo-compatible frontmatter with the ChatHub extension fields, `Frontmatter`. -/
structure Frontmatter where
  Title : List Char
  Date : Time
  LastMod : Time
  Draft : Bool
  Tags : List (List Char)
  Categories : List (List Char)
  Author : List Char
  Description : List Piece
  Slug : List Char
  Weight : Int
  Aliases : List (List Char)
  Source : List Char
  ConversationID : List Char
  Participants : List (List Char)
  MessageCount : Int
  Model : List Char
  Tokens : Int
deriving DecidableEq, Repr

/-- An error of the YAML library (`gopkg.in/yaml.v3`), known by its message. -/
structure YamlError where
  msg : List Char
deriving DecidableEq, Repr

/-- Errors of `Parse`: the sentinel `ErrInvalidFrontmatter`, and the sentinel wrapping a YAML
decoding error (`fmt.Errorf("%w: %v", ErrInvalidFrontmatter, err)`). -/
inductive ParseError where
  | ErrInvalidFrontmatter
  | wrapped (cause : YamlError)
deriving DecidableEq, Repr

/-- The three results of `Parse`: the frontmatter (`nil` is `none`), the remaining content
(`nil` is the empty slice) and the error (`nil` is `none`). -/
structure ParseResult where
  fm : Option Frontmatter
  body : List Char
  err : Option ParseError
deriving DecidableEq, Repr

/-- The YAML frontmatter delimiter, `frontmatterDelimiter`. -/
def frontmatterDelimiter : List Char := ['-', '-', '-']

/-- White space as `unicode.IsSpace` defines it: the Latin-1 spaces and the other runes of the
Unicode property `White_Space`. -/
def isSpace (r : Char) : Bool :=
  let n := r.toNat
  (9 ≤ n && n ≤ 13) || n = 32 || n = 0x85 || n = 0xA0 || n = 0x1680 || (0x2000 ≤ n && n ≤ 0x200A)
    || n = 0x2028 || n = 0x2029 || n = 0x202F || n = 0x205F || n = 0x3000

/-- Removal of leading and trailing white space, `bytes.TrimSpace`. -/
def TrimSpace (s : List Char) : List Char :=
  ((s.dropWhile isSpace).reverse.dropWhile isSpace).reverse

/-- White space among the pieces of a string: a rune of `unicode.IsSpace`; a byte that is no
valid encoding is read as `utf8.RuneError`, which is not white space. -/
def Piece.isSpace : Piece → Bool
  | Piece.rune c => ChatHub.isSpace c
  | Piece.byte _ => false

/-- Whether `s` begins with `pre`, `bytes.HasPrefix`. -/
def HasPrefix (s pre : List Char) : Bool :=
  pre.isPrefixOf s

/-- Index of the first instance of `sep` in `s`, or `-1` when there is none, `bytes.Index`. -/
def Index : List Char → List Char → Int
  | [], sep => if sep = [] then 0 else -1
  | c :: cs, sep =>
    if sep.isPrefixOf (c :: cs) then 0
    else
      let i := Index cs sep
      if i = -1 then -1 else i + 1

/-- Extraction of the frontmatter from Markdown content, `Parse`.  The decoder
`yaml.Unmarshal` into a zero `Frontmatter` belongs to the YAML library and is a parameter. -/
def Parse (yamlUnmarshal : List Char → Except YamlError Frontmatter) (content : List Char) :
    ParseResult :=
  let content := TrimSpace content
  if !HasPrefix content frontmatterDelimiter then
    ⟨none, content, none⟩
  else
    let rest := content.drop frontmatterDelimiter.length
    let endIdx := Index rest frontmatterDelimiter
    if endIdx = -1 then
      ⟨none, [], some ParseError.ErrInvalidFrontmatter⟩
    else
      let yamlContent := TrimSpace (rest.take endIdx.toNat)
      let remaining := TrimSpace (rest.drop (endIdx.toNat + frontmatterDelimiter.length))
      match yamlUnmarshal yamlContent with
      | Except.error e => ⟨none, [], some (ParseError.wrapped e)⟩
      | Except.ok fm => ⟨some fm, remaining, none⟩

/-- YAML frontmatter bytes, `Render`.  The encoder `yaml.Marshal` belongs to the YAML library
and is a parameter. -/
def Render (yamlMarshal : Frontmatter → Except YamlError (List Char)) (f : Frontmatter) :
    Except YamlError (List Char) :=
  match yamlMarshal f with
  | Except.error e => Except.error e
  | Except.ok yamlBytes => Except.ok (['-', '-', '-', '\n'] ++ yamlBytes ++ ['-', '-', '-', '\n'])

/-- Complete Markdown with frontmatter and content, `RenderWithContent`. -/
def RenderWithContent (yamlMarshal : Frontmatter → Except YamlError (List Char))
    (f : Frontmatter) (content : List Char) : Except YamlError (List Char) :=
  match Render yamlMarshal f with
  | Except.error e => Except.error e
  | Except.ok fmBytes => Except.ok (fmBytes ++ ['\n'] ++ content)

/-- The zero `time.Time`. -/
def zeroTime : Time := ⟨1, 1, 1, 0, 0, 0, 0⟩

/-- A new `Frontmatter` with default values, `New`; `now` is `time.Now().UTC()` and `unixNano`
the clock reading taken by `GenerateConversationID`. -/
def New (caseTable : Char → Char) (now : Time) (unixNano : Int) (title source : List Char) :
    Frontmatter :=
  { Title := title
    Date := now
    LastMod := now
    Draft := false
    Tags := []
    Categories := []
    Author := source
    Description := []
    Slug := GenerateSlug caseTable title
    Weight := 0
    Aliases := []
    Source := source
    ConversationID := GenerateConversationID unixNano
    Participants := []
    MessageCount := 0
    Model := []
    Tokens := 0 }

/-- The lines of `content`, `bytes.Split(content, "\n")`. -/
def splitLines : List Char → List (List Char)
  | [] => [[]]
  | c :: cs =>
    if c = '\n' then [] :: splitLines cs
    else
      match splitLines cs with
      | [] => [[c]]
      | l :: ls => (c :: l) :: ls

/-- The loop of `ExtractDescription` over the lines.  The cut `text[:maxLen]` is a byte slice,
so that the result is held as pieces. -/
def extractFromLines (maxLen : Nat) : List (List Char) → List Piece
  | [] => []
  | line :: lines =>
    let line := TrimSpace line
    if len line = 0 then extractFromLines maxLen lines
    else if HasPrefix line ['#'] then extractFromLines maxLen lines
    else if len line > maxLen then takeBytes maxLen (ofRunes line) ++ ofRunes ['.', '.', '.']
    else ofRunes line

/-- Description taken from content, `ExtractDescription`: the first non-empty line that is
not a Markdown header, cut to `maxLen` bytes. -/
def ExtractDescription (content : List Char) (maxLen : Nat) : List Piece :=
  extractFromLines maxLen (splitLines content)

/-! ## Storage (`storage.go`) -/

/-- An error of the storage backend, known by its message. -/
structure BackendError where
  msg : List Char
deriving DecidableEq, Repr

/-- The step of `Storage.Save` at which the backend failed. -/
inductive WriteStep where
  | newWriter
  | write
  | close
deriving DecidableEq, Repr

/-- The operations of `omnistorage.Backend` that `Storage` calls, over a backend state `σ`.
`write` stands for `NewWriter`, `Write` and `Close` on one path and tells the failing step. -/
structure Backend (σ : Type) where
  write : σ → List Char → List Char → σ × Option (WriteStep × BackendError)
  read : σ → List Char → Except BackendError (List Char)
  list : σ → List Char → Except BackendError (List (List Char))
  delete : σ → List Char → σ × Option BackendError
  pathExists : σ → List Char → Except BackendError Bool

/-- The wrapper `Storage`: a backend, its state and the configured root folder. -/
structure Storage (σ : Type) where
  backend : Backend σ
  state : σ
  folder : List Char

/-- An error returned by `Storage`: the backend error wrapped with the operation and the path. -/
inductive StorageError where
  | createWriter (filePath : List Char) (cause : BackendError)
  | writeTo (filePath : List Char) (cause : BackendError)
  | closeWriter (filePath : List Char) (cause : BackendError)
deriving DecidableEq, Repr

/-- Writing content to a path, `Storage.Save`. -/
def Storage.Save {σ : Type} (s : Storage σ) (filePath content : List Char) :
    Storage σ × Option StorageError :=
  match s.backend.write s.state filePath content with
  | (st, none) => ({ s with state := st }, none)
  | (st, some (WriteStep.newWriter, e)) =>
    ({ s with state := st }, some (StorageError.createWriter filePath e))
  | (st, some (WriteStep.write, e)) =>
    ({ s with state := st }, some (StorageError.writeTo filePath e))
  | (st, some (WriteStep.close, e)) =>
    ({ s with state := st }, some (StorageError.closeWriter filePath e))

/-- The configured root folder, `Storage.Folder`. -/
def Storage.Folder {σ : Type} (s : Storage σ) : List Char :=
  s.folder

/-- A backend that keeps the documents in memory as a list of paths with their content. -/
def memoryBackend : Backend (List (List Char × List Char)) where
  write := fun st p c => ((p, c) :: st.filter (fun e => e.1 ≠ p), none)
  read := fun st p =>
    match st.find? (fun e => e.1 = p) with
    | some e => Except.ok e.2
    | none => Except.error ⟨['n', 'o', 't', ' ', 'f', 'o', 'u', 'n', 'd']⟩
  list := fun st pre => Except.ok ((st.map Prod.fst).filter (fun p => pre.isPrefixOf p))
  delete := fun st p => (st.filter (fun e => e.1 ≠ p), none)
  pathExists := fun st p => Except.ok (st.any (fun e => e.1 = p))

/-! ## Saving a conversation (`save.go`, `types.go`) -/

/-- Input of the `save_conversation` tool, `SaveConversationInput`. -/
structure SaveConversationInput where
  Title : List Char
  Content : List Char
  Source : List Char
  Tags : List (List Char)
  Categories : List (List Char)
  Description : List Char
deriving DecidableEq, Repr

/-- Output of the `save_conversation` tool, `SaveConversationOutput`. -/
structure SaveConversationOutput where
  Path : List Char
  ConversationID : List Char
deriving DecidableEq, Repr

/-- Errors of `SaveConversation`. -/
inductive SaveError where
  | invalidSource (source : List Char)
  | renderFailed (cause : YamlError)
  | saveFailed (cause : StorageError)
deriving DecidableEq, Repr

/-- The clock readings of one `SaveConversation` call, in the order the code takes them:
`time.Now().UTC()` in `New`, `time.Now().UnixNano()` in `GenerateConversationID`, and
`time.Now().UTC()` for the file path. -/
structure SaveClock where
  newNow : Time
  idUnixNano : Int
  pathNow : Time
deriving DecidableEq, Repr

/-- Saving a conversation to storage, `SaveConversation`.  Returns the storage after the call,
the output and the error (`nil` is `none`). -/
def SaveConversation {σ : Type} (caseTable : Char → Char)
    (yamlMarshal : Frontmatter → Except YamlError (List Char)) (clock : SaveClock)
    (store : Storage σ) (input : SaveConversationInput) :
    Storage σ × SaveConversationOutput × Option SaveError :=
  if !ValidSource input.Source then
    (store, ⟨[], []⟩, some (SaveError.invalidSource input.Source))
  else
    let fm := New caseTable clock.newNow clock.idUnixNano input.Title input.Source
    let fm := { fm with Tags := input.Tags, Categories := input.Categories }
    let fm :=
      if input.Description ≠ [] then { fm with Description := ofRunes input.Description }
      else { fm with Description := ExtractDescription input.Content 150 }
    let filePath := GeneratePath caseTable store.Folder input.Source input.Title clock.pathNow
    match RenderWithContent yamlMarshal fm input.Content with
    | Except.error e => (store, ⟨[], []⟩, some (SaveError.renderFailed e))
    | Except.ok content =>
      match store.Save filePath content with
      | (store, some e) => (store, ⟨[], []⟩, some (SaveError.saveFailed e))
      | (store, none) => (store, ⟨filePath, fm.ConversationID⟩, none)

/-! ## Sample values -/

/-- The text `yaml.Marshal` writes for the frontmatter with title `a---b`, date
2026-01-10T14:30:00Z and source `chatgpt`, every other field zero. -/
def dashedTitleYaml : List Char :=
  "title: a---b\ndate: 2026-01-10T14:30:00Z\nsource: chatgpt\n".toList

/-- The frontmatter of the test `TestRender`. -/
def sampleFrontmatter : Frontmatter :=
  { Title := "Test".toList
    Date := ⟨2026, 1, 10, 14, 30, 0, 0⟩
    LastMod := zeroTime
    Draft := false
    Tags := ["mcp".toList, "golang".toList]
    Categories := []
    Author := []
    Description := []
    Slug := []
    Weight := 0
    Aliases := []
    Source := "chatgpt".toList
    ConversationID := []
    Participants := []
    MessageCount := 0
    Model := []
    Tokens := 0 }

/-- The text `yaml.Marshal` writes for `sampleFrontmatter`. -/
def sampleYaml : List Char :=
  "title: Test\ndate: 2026-01-10T14:30:00Z\ntags:\n    - mcp\n    - golang\nsource: chatgpt\n".toList

/-! ## Machine integers -/

/-- The largest value of the Go type `int` on a 64-bit platform. -/
def maxInt : Int := 9223372036854775807

/-- The smallest value of the Go type `int` on a 64-bit platform. -/
def minInt : Int := -9223372036854775808

/-- The `int` that holds the exact result `x` of an addition: Go wraps around modulo `2^64`. -/
def wrapInt (x : Int) : Int :=
  (x + 9223372036854775808) % 18446744073709551616 - 9223372036854775808

/-! ## Storage, continued (`storage.go`) -/

/-- An error of `Storage.Read`, `Storage.List` or `Storage.Delete`: the backend error wrapped
with the operation and the path. -/
inductive AccessError where
  | readFrom (filePath : List Char) (cause : BackendError)
  | listAt (pathStart : List Char) (cause : BackendError)
  | deleteAt (filePath : List Char) (cause : BackendError)
deriving DecidableEq, Repr

/-- Reading the content of a path, `Storage.Read`. -/
def Storage.Read {σ : Type} (s : Storage σ) (filePath : List Char) :
    Except AccessError (List Char) :=
  match s.backend.read s.state filePath with
  | Except.error e => Except.error (AccessError.readFrom filePath e)
  | Except.ok content => Except.ok content

/-- Listing the files below a path, `Storage.List` (renamed: the name `List` is taken). -/
def Storage.ListFiles {σ : Type} (s : Storage σ) (pathStart : List Char) :
    Except AccessError (List (List Char)) :=
  match s.backend.list s.state pathStart with
  | Except.error e => Except.error (AccessError.listAt pathStart e)
  | Except.ok files => Except.ok files

/-- Whether `s` ends with `suffix`, `strings.HasSuffix`. -/
def HasSuffix (s suffix : List Char) : Bool :=
  suffix.isSuffixOf s

/-- The document suffix `.md`. -/
def mdSuffix : List Char := ['.', 'm', 'd']

/-- All conversation files of the storage folder, `Storage.ListConversations`. -/
def Storage.ListConversations {σ : Type} (s : Storage σ) :
    Except AccessError (List (List Char)) :=
  s.ListFiles s.folder

/-- The conversations of one source, `Storage.ListBySource`.  `pathJoin` is `path.Join` of the
Go library. -/
def Storage.ListBySource {σ : Type} (pathJoin : List Char → List Char → List Char)
    (s : Storage σ) (source : List Char) : Except AccessError (List (List Char)) :=
  match s.ListFiles (pathJoin s.folder source) with
  | Except.error e => Except.error e
  | Except.ok files => Except.ok (files.filter (fun f => HasSuffix f mdSuffix))

/-- Removal of a file, `Storage.Delete`. -/
def Storage.Delete {σ : Type} (s : Storage σ) (filePath : List Char) :
    Storage σ × Option AccessError :=
  match s.backend.delete s.state filePath with
  | (st, none) => ({ s with state := st }, none)
  | (st, some e) => ({ s with state := st }, some (AccessError.deleteAt filePath e))

/-- Whether a file exists, `Storage.Exists`. -/
def Storage.Exists {σ : Type} (s : Storage σ) (filePath : List Char) :
    Except BackendError Bool :=
  s.backend.pathExists s.state filePath

/-- The contract of a storage backend that the tools rely on: a successful write is read
back and touches no other path, and a successful delete removes the path and touches no other
path. -/
structure Backend.Lawful {σ : Type} (b : Backend σ) : Prop where
  read_write : ∀ st st' p c, b.write st p c = (st', none) → b.read st' p = Except.ok c
  read_write_other : ∀ st st' p c q, b.write st p c = (st', none) → q ≠ p →
    b.read st' q = b.read st q
  exists_write_other : ∀ st st' p c q, b.write st p c = (st', none) → q ≠ p →
    b.pathExists st' q = b.pathExists st q
  exists_delete : ∀ st st' p, b.delete st p = (st', none) →
    b.pathExists st' p = Except.ok false
  exists_delete_other : ∀ st st' p q, b.delete st p = (st', none) → q ≠ p →
    b.pathExists st' q = b.pathExists st q
  read_delete_other : ∀ st st' p q, b.delete st p = (st', none) → q ≠ p →
    b.read st' q = b.read st q

/-! ## Appending to a conversation (`append.go`) -/

/-- Input of the `append_conversation` tool, `AppendConversationInput`. -/
structure AppendConversationInput where
  Path : List Char
  Content : List Char
deriving DecidableEq, Repr

/-- Output of the `append_conversation` tool, `AppendConversationOutput`. -/
structure AppendConversationOutput where
  Path : List Char
  MessageCount : Int
deriving DecidableEq, Repr

/-- Errors of `AppendConversation`. -/
inductive AppendError where
  | readFailed (cause : AccessError)
  | parseFailed (cause : ParseError)
  | renderFailed (cause : YamlError)
  | saveFailed (cause : StorageError)
deriving DecidableEq, Repr

/-- Appending content to an existing conversation, `AppendConversation`; `now` is
`time.Now().UTC()`.  Returns the storage after the call, the output and the error. -/
def AppendConversation {σ : Type}
    (yamlMarshal : Frontmatter → Except YamlError (List Char))
    (yamlUnmarshal : List Char → Except YamlError Frontmatter) (now : Time)
    (store : Storage σ) (input : AppendConversationInput) :
    Storage σ × AppendConversationOutput × Option AppendError :=
  match store.Read input.Path with
  | Except.error e => (store, ⟨[], 0⟩, some (AppendError.readFailed e))
  | Except.ok existing =>
    match Parse yamlUnmarshal existing with
    | ⟨_, _, some e⟩ => (store, ⟨[], 0⟩, some (AppendError.parseFailed e))
    | ⟨none, _, none⟩ =>
      let newContent := existing ++ (['\n', '\n'] ++ input.Content)
      match store.Save input.Path newContent with
      | (store, some e) => (store, ⟨[], 0⟩, some (AppendError.saveFailed e))
      | (store, none) => (store, ⟨input.Path, 0⟩, none)
    | ⟨some fm, body, none⟩ =>
      let fm := { fm with LastMod := now }
      let fm := { fm with MessageCount := wrapInt (fm.MessageCount + 1) }
      let newBody := body ++ (['\n', '\n'] ++ input.Content)
      match RenderWithContent yamlMarshal fm newBody with
      | Except.error e => (store, ⟨[], 0⟩, some (AppendError.renderFailed e))
      | Except.ok updated =>
        match store.Save input.Path updated with
        | (store, some e) => (store, ⟨[], 0⟩, some (AppendError.saveFailed e))
        | (store, none) => (store, ⟨input.Path, fm.MessageCount⟩, none)

/-! ## Deleting a conversation (`delete.go`, `types.go`) -/

/-- Input of the `delete_conversation` tool, `DeleteConversationInput`. -/
structure DeleteConversationInput where
  Path : List Char
deriving DecidableEq, Repr

/-- Output of the `delete_conversation` tool, `DeleteConversationOutput`. -/
structure DeleteConversationOutput where
  Deleted : Bool
  Message : List Char
deriving DecidableEq, Repr

/-- Errors of `DeleteConversation`. -/
inductive DeleteError where
  | existsFailed (cause : BackendError)
  | deleteFailed (cause : AccessError)
deriving DecidableEq, Repr

/-- Deleting a conversation from storage, `DeleteConversation`.  Returns the storage after the
call, the output and the error. -/
def DeleteConversation {σ : Type} (store : Storage σ) (input : DeleteConversationInput) :
    Storage σ × DeleteConversationOutput × Option DeleteError :=
  match store.Exists input.Path with
  | Except.error e => (store, ⟨false, []⟩, some (DeleteError.existsFailed e))
  | Except.ok «exists» =>
    if !«exists» then
      (store, ⟨false, "conversation not found: ".toList ++ input.Path⟩, none)
    else
      match store.Delete input.Path with
      | (store, some e) => (store, ⟨false, []⟩, some (DeleteError.deleteFailed e))
      | (store, none) => (store, ⟨true, "deleted: ".toList ++ input.Path⟩, none)

/-! ## Listing conversations (`list.go`, `types.go`) -/

/-- The default page size, `defaultListLimit`. -/
def defaultListLimit : Int := 50

/-- Input of the `list_conversations` tool, `ListConversationsInput`. -/
structure ListConversationsInput where
  Source : List Char
  Limit : Int
  Offset : Int
deriving DecidableEq, Repr

/-- A conversation in list results, `ConversationSummary`. -/
structure ConversationSummary where
  Path : List Char
  Title : List Char
  Date : List Char
  Source : List Char
  Tags : List (List Char)
  Description : List Piece
deriving DecidableEq, Repr

/-- Output of the `list_conversations` tool, `ListConversationsOutput`. -/
structure ListConversationsOutput where
  Conversations : List ConversationSummary
  Total : Int
  HasMore : Bool
deriving DecidableEq, Repr

/-- Errors of `ListConversations`. -/
inductive ListError where
  | listFailed (cause : AccessError)
deriving DecidableEq, Repr

/-- Summary of one conversation file, `getConversationSummary`: an error when the file cannot
be read, the path alone when the frontmatter fails to parse or is absent. -/
def getConversationSummary {σ : Type}
    (yamlUnmarshal : List Char → Except YamlError Frontmatter) (store : Storage σ)
    (filePath : List Char) : Except AccessError ConversationSummary :=
  match store.Read filePath with
  | Except.error e => Except.error e
  | Except.ok content =>
    match Parse yamlUnmarshal content with
    | ⟨_, _, some _⟩ => Except.ok ⟨filePath, [], [], [], [], []⟩
    | ⟨none, _, none⟩ => Except.ok ⟨filePath, [], [], [], [], []⟩
    | ⟨some fm, _, none⟩ =>
      Except.ok ⟨filePath, fm.Title, formatDate fm.Date, fm.Source, fm.Tags, fm.Description⟩

/-- The loop of `ListConversations` that builds the summaries of the page: a file whose
summary fails is passed over. -/
def buildSummaries {σ : Type} (yamlUnmarshal : List Char → Except YamlError Frontmatter)
    (store : Storage σ) : List (List Char) → List ConversationSummary
  | [] => []
  | filePath :: rest =>
    match getConversationSummary yamlUnmarshal store filePath with
    | Except.error _ => buildSummaries yamlUnmarshal store rest
    | Except.ok summary => summary :: buildSummaries yamlUnmarshal store rest

/-- Listing of conversations with optional filtering, `ListConversations`.  The result is
`none` when the slice expression `mdFiles[start:end]` panics, which Go does unless
`0 <= start <= end <= cap(mdFiles)`; `end` never exceeds `len(mdFiles)`. -/
def ListConversations {σ : Type} (pathJoin : List Char → List Char → List Char)
    (yamlUnmarshal : List Char → Except YamlError Frontmatter) (store : Storage σ)
    (input : ListConversationsInput) : Option (ListConversationsOutput × Option ListError) :=
  let limit := if input.Limit ≤ 0 then defaultListLimit else input.Limit
  let listed :=
    if input.Source ≠ [] then store.ListBySource pathJoin input.Source
    else store.ListConversations
  match listed with
  | Except.error e => some (⟨[], 0, false⟩, some (ListError.listFailed e))
  | Except.ok files =>
    let mdFiles := files.filter (fun f => HasSuffix f mdSuffix)
    let total : Int := mdFiles.length
    let start := if input.Offset > mdFiles.length then (mdFiles.length : Int) else input.Offset
    let stop := wrapInt (start + limit)
    let stop := if stop > mdFiles.length then (mdFiles.length : Int) else stop
    if 0 ≤ start ∧ start ≤ stop then
      let pagedFiles := (mdFiles.drop start.toNat).take (stop.toNat - start.toNat)
      let hasMore := decide (stop < mdFiles.length)
      let conversations := buildSummaries yamlUnmarshal store pagedFiles
      some (⟨conversations, total, hasMore⟩, none)
    else none

/-! ## Searching conversations (`search.go`, `types.go`) -/

/-- The default number of results, `defaultSearchLimit`. -/
def defaultSearchLimit : Int := 20

/-- The context kept on each side of a match, `snippetContextChars`. -/
def snippetContextChars : Int := 100

/-- A `float64` as far as `calculateScore` tells values apart: a number, kept exact (the
rounding of IEEE 754 is not modelled), an infinity, or NaN. -/
inductive Float64 where
  | num (q : ℚ)
  | inf (negative : Bool)
  | nan
deriving DecidableEq

/-- The conversion `float64(n)` of an `int`. -/
def Float64.ofInt (n : Int) : Float64 := Float64.num n

/-- The sum of two `float64`: NaN when an operand is NaN or the operands are opposite
infinities. -/
def Float64.add : Float64 → Float64 → Float64
  | Float64.num a, Float64.num b => Float64.num (a + b)
  | Float64.nan, _ => Float64.nan
  | _, Float64.nan => Float64.nan
  | Float64.inf s, Float64.num _ => Float64.inf s
  | Float64.num _, Float64.inf s => Float64.inf s
  | Float64.inf s, Float64.inf t => if s = t then Float64.inf s else Float64.nan

/-- The opposite of a `float64`. -/
def Float64.neg : Float64 → Float64
  | Float64.num a => Float64.num (-a)
  | Float64.inf s => Float64.inf (!s)
  | Float64.nan => Float64.nan

/-- The difference of two `float64`. -/
def Float64.sub (x y : Float64) : Float64 := Float64.add x (Float64.neg y)

/-- The quotient of two `float64`, for a divisor that is not negative (a length or a positive
constant): `0/0` is NaN, a number other than zero divided by zero is an infinity of its sign. -/
def Float64.div : Float64 → Float64 → Float64
  | Float64.num a, Float64.num b =>
    if b = 0 then
      if a = 0 then Float64.nan else Float64.inf (decide (a < 0))
    else Float64.num (a / b)
  | Float64.nan, _ => Float64.nan
  | _, Float64.nan => Float64.nan
  | Float64.inf s, Float64.num _ => Float64.inf s
  | Float64.num _, Float64.inf _ => Float64.num 0
  | Float64.inf _, Float64.inf _ => Float64.nan

/-- The comparison `x > y` of two `float64`: false when an operand is NaN. -/
def Float64.gt : Float64 → Float64 → Bool
  | Float64.num a, Float64.num b => decide (a > b)
  | Float64.nan, _ => false
  | _, Float64.nan => false
  | Float64.inf s, Float64.num _ => !s
  | Float64.num _, Float64.inf s => s
  | Float64.inf s, Float64.inf t => !s && t

/-- Whether a `float64` is a number of the interval `[0, 1]`. -/
def Float64.inUnitInterval : Float64 → Bool
  | Float64.num q => decide (0 ≤ q ∧ q ≤ 1)
  | _ => false

/-- A search result, `SearchResult`. -/
structure SearchResult where
  Path : List Char
  Title : List Char
  Snippet : List Piece
  Score : Float64
deriving DecidableEq

/-- Input of the `search_conversations` tool, `SearchConversationsInput`. -/
structure SearchConversationsInput where
  Query : List Char
  Source : List Char
  Limit : Int
deriving DecidableEq, Repr

/-- Output of the `search_conversations` tool, `SearchConversationsOutput`. -/
structure SearchConversationsOutput where
  Results : List SearchResult
  Total : Int
deriving DecidableEq

/-- Errors of `SearchConversations`. -/
inductive SearchError where
  | listFailed (cause : AccessError)
deriving DecidableEq, Repr

/-- Byte index of the first instance of `sep` in `s`, or `-1`, `strings.Index`: the byte
offset of the rune index that `Index` finds. -/
def stringsIndex (s sep : List Char) : Int :=
  let i := Index s sep
  if i = -1 then -1 else (len (s.take i.toNat) : Int)

/-- The count of `Count` after a match: `skip` runes still belong to the last match. -/
def countFrom (sep : List Char) : Nat → List Char → Nat
  | _, [] => 0
  | skip + 1, _ :: cs => countFrom sep skip cs
  | 0, c :: cs =>
    if sep.isPrefixOf (c :: cs) then 1 + countFrom sep (sep.length - 1) cs
    else countFrom sep 0 cs

/-- Number of non-overlapping instances of `sep` in `s`, `strings.Count`; for an empty `sep`,
one more than the number of runes of `s`. -/
def Count (s sep : List Char) : Nat :=
  if sep = [] then s.length + 1 else countFrom sep 0 s

/-- The fields of `s` around runs of white space, `strings.Fields`. -/
def Fields : List Piece → List (List Piece)
  | [] => []
  | [c] => if c.isSpace then [] else [[c]]
  | c :: d :: ds =>
    if c.isSpace then Fields (d :: ds)
    else if d.isSpace then [c] :: Fields ds
    else
      match Fields (d :: ds) with
      | f :: fs => (c :: f) :: fs
      | [] => [[c]]

/-- Concatenation of the elements with `sep` between them, `strings.Join`. -/
def Join : List (List Piece) → List Piece → List Piece
  | [], _ => []
  | [x], _ => x
  | x :: y :: ys, sep => x ++ sep ++ Join (y :: ys) sep

/-- Replacement of every newline by a space, `strings.ReplaceAll(s, "\n", " ")`.  The byte
`0x0A` occurs in a slice of a valid text only as the rune `\n`. -/
def replaceNewlines (s : List Piece) : List Piece :=
  s.map (fun c => if c = Piece.rune '\n' then Piece.rune ' ' else c)

/-- The snippet around a match, `extractSnippet`; `none` when the slice expression
`content[start:end]` panics, which Go does unless `0 <= start <= end <= len(content)`.  The
sums are those of lengths of strings in memory and do not overflow. -/
def extractSnippet (content : List Char) (idx : Int) (query : List Char) (contextChars : Int) :
    Option (List Piece) :=
  let start := idx - contextChars
  let start := if start < 0 then 0 else start
  let stop := idx + len query + contextChars
  let stop := if stop > len content then (len content : Int) else stop
  if 0 ≤ start ∧ start ≤ stop ∧ stop ≤ len content then
    let snippet := sliceBytes start.toNat stop.toNat content
    let snippet := replaceNewlines snippet
    let snippet := Join (Fields snippet) [Piece.rune ' ']
    let snippet := if start > 0 then ofRunes ['.', '.', '.'] ++ snippet else snippet
    let snippet := if stop < len content then snippet ++ ofRunes ['.', '.', '.'] else snippet
    some snippet
  else none

/-- The relevance score, `calculateScore`.  A sum or a quotient that is a number is the exact
value, which Go rounds to the nearest `float64`; the cases that give NaN or an infinity are
those of IEEE 754, which depend on no rounding. -/
def calculateScore (content query : List Char) (firstIdx : Int) : Float64 :=
  let count := Count content query
  let positionScore := Float64.sub (Float64.num 1)
    (Float64.div (Float64.ofInt firstIdx) (Float64.ofInt (len content)))
  let frequencyScore := Float64.div (Float64.ofInt count) (Float64.num 10)
  let frequencyScore :=
    if Float64.gt frequencyScore (Float64.num 1) then Float64.num 1 else frequencyScore
  Float64.div (Float64.add positionScore frequencyScore) (Float64.num 2)

/-- The search of one file, `searchFile`: the result and whether the query was found; `none`
when `extractSnippet` panics. -/
def searchFile {σ : Type} (caseTable : Char → Char)
    (yamlUnmarshal : List Char → Except YamlError Frontmatter) (store : Storage σ)
    (filePath query : List Char) : Option (Option SearchResult) :=
  match store.Read filePath with
  | Except.error _ => some none
  | Except.ok content =>
    let contentLower := ToLower caseTable content
    let idx := stringsIndex contentLower query
    if idx = -1 then some none
    else
      let parsed := Parse yamlUnmarshal content
      let title :=
        match parsed.fm with
        | some fm => fm.Title
        | none => []
      match extractSnippet parsed.body idx query snippetContextChars with
      | none => none
      | some snippet =>
        let score := calculateScore contentLower query idx
        some (some ⟨filePath, title, snippet, score⟩)

/-- The loop of `SearchConversations` over the listed files; `results` holds the matches so
far.  `none` when `searchFile` panics. -/
def searchFiles {σ : Type} (caseTable : Char → Char)
    (yamlUnmarshal : List Char → Except YamlError Frontmatter) (store : Storage σ)
    (query : List Char) (limit : Int) :
    List (List Char) → List SearchResult → Option (List SearchResult)
  | [], results => some results
  | filePath :: rest, results =>
    if !HasSuffix filePath mdSuffix then
      searchFiles caseTable yamlUnmarshal store query limit rest results
    else
      match searchFile caseTable yamlUnmarshal store filePath query with
      | none => none
      | some none => searchFiles caseTable yamlUnmarshal store query limit rest results
      | some (some result) =>
        let results := results ++ [result]
        if (results.length : Int) ≥ limit then some results
        else searchFiles caseTable yamlUnmarshal store query limit rest results

/-- Search of conversations by content, `SearchConversations`; `none` when the call panics. -/
def SearchConversations {σ : Type} (caseTable : Char → Char)
    (pathJoin : List Char → List Char → List Char)
    (yamlUnmarshal : List Char → Except YamlError Frontmatter) (store : Storage σ)
    (input : SearchConversationsInput) :
    Option (SearchConversationsOutput × Option SearchError) :=
  let limit := if input.Limit ≤ 0 then defaultSearchLimit else input.Limit
  let listed :=
    if input.Source ≠ [] then store.ListBySource pathJoin input.Source
    else store.ListConversations
  match listed with
  | Except.error e => some (⟨[], 0⟩, some (SearchError.listFailed e))
  | Except.ok files =>
    let query := ToLower caseTable input.Query
    match searchFiles caseTable yamlUnmarshal store query limit files [] with
    | none => none
    | some results => some (⟨results, results.length⟩, none)

/-- A stored conversation: the frontmatter text `sampleYaml` between the delimiter lines, a
blank line and the body `Hi`. -/
def sampleDocument : List Char :=
  "---\n".toList ++ sampleYaml ++ "---\n\nHi".toList

/-- The path of the stored conversation. -/
def samplePath : List Char := "conversations/chatgpt/2026-01-10_test.md".toList

/-- A storage in memory that holds `sampleDocument` at `samplePath`. -/
def sampleStore : Storage (List (List Char × List Char)) :=
  ⟨memoryBackend, [(samplePath, sampleDocument)], "conversations".toList⟩

/-- A storage in memory that holds five documents without frontmatter. -/
def fiveStore : Storage (List (List Char × List Char)) :=
  ⟨memoryBackend,
    [("c/1.md".toList, "one".toList), ("c/2.md".toList, "two".toList),
      ("c/3.md".toList, "three".toList), ("c/4.md".toList, "four".toList),
      ("c/5.md".toList, "five".toList)],
    "c".toList⟩

/-- A storage whose listing names three documents: `c/a.md`, whose header opens and never
closes, `c/ghost.md`, which cannot be read, and `c/b.md`, the sample document. -/
def ghostStore : Storage (List (List Char × List Char)) :=
  ⟨{ memoryBackend with
      list := fun _ _ => Except.ok ["c/a.md".toList, "c/ghost.md".toList, "c/b.md".toList] },
    [("c/a.md".toList, "--- title: x".toList), ("c/b.md".toList, sampleDocument)],
    "c".toList⟩

/-- The page in the words of the specification: the entries of `mdFiles` from `min(offset, n)`
up to `min(min(offset, n) + limit, n)`, where `n` is their number. -/
def pageSpec (mdFiles : List (List Char)) (offset limit : Int) : List (List Char) :=
  (mdFiles.drop (min offset (mdFiles.length : Int)).toNat).take
    ((min (min offset (mdFiles.length : Int) + limit) (mdFiles.length : Int)).toNat
      - (min offset (mdFiles.length : Int)).toNat)

/-- Whether `Storage.Read` succeeds on a path. -/
def Storage.readable {σ : Type} (s : Storage σ) (filePath : List Char) : Bool :=
  match s.Read filePath with
  | Except.ok _ => true
  | Except.error _ => false

/-- A storage in memory that holds one empty document. -/
def emptyDocStore : Storage (List (List Char × List Char)) :=
  ⟨memoryBackend, [("c/empty.md".toList, [])], "c".toList⟩

/-- A conversation as `SaveConversation` writes it for the title `Hello World`, the source
`chatgpt` and the content `Hi`. -/
def savedDocument : List Char :=
  ("---\ntitle: Hello World\ndate: 2026-01-10T14:30:00Z\nlastmod: 2026-01-10T14:30:00Z\n"
    ++ "author: chatgpt\ndescription: Hi\nslug: hello-world\nsource: chatgpt\n"
    ++ "conversation_id: conv_1768055400000000000\n---\n\nHi").toList

/-- A storage in memory that holds `savedDocument`. -/
def savedStore : Storage (List (List Char × List Char)) :=
  ⟨memoryBackend, [("conversations/chatgpt/2026-01-10_hello-world.md".toList, savedDocument)],
    "conversations".toList⟩

/-- The cleaned window in the words of the specification: the newlines turned into spaces and
every run of white space collapsed to a single space. -/
def collapseWhitespaceSpec (window : List Piece) : List Piece :=
  replaceRuns Piece.isSpace [Piece.rune ' '] false
    (window.map (fun c => if c = Piece.rune '\n' then Piece.rune ' ' else c))

/-- The cleaned window as the code leaves it, stated with the list functions
`List.dropWhile` and `List.rdropWhile`: the newlines turned into spaces, the leading and the
trailing white space removed, and every run of white space collapsed to a single space. -/
def trimCollapseWhitespaceSpec (window : List Piece) : List Piece :=
  replaceRuns Piece.isSpace [Piece.rune ' '] false
    (((window.map (fun c => if c = Piece.rune '\n' then Piece.rune ' ' else c)).dropWhile
      Piece.isSpace).rdropWhile Piece.isSpace)

/-- The bytes `t[a:b]` of a text in the words of the specification, with `List.drop` and
`List.take` on the encoded text. -/
def byteWindowSpec (t : List Char) (a b : Nat) : List Nat :=
  ((utf8Encode t).drop a).take (b - a)

/-- The line that decides the description, in the words of the specification: the first line
(split on the newline) whose white-space-trimmed form is not empty and does not start with `#`,
trimmed. -/
def firstTextLine (content : List Char) : Option (List Char) :=
  ((content.splitOn '\n').map (fun l => (l.dropWhile isSpace).rdropWhile isSpace)).find?
    (fun l => decide (l ≠ []) && decide (l.head? ≠ some '#'))

/-- The content of the test `TestExtractDescription`. -/
def sampleContent : List Char :=
  ("# Title\n\n**User:** How do I build an MCP server?\n\n"
    ++ "**Assistant:** To build an MCP server...").toList

/-- The date as `YYYY-MM-DD` in the words of the specification: the year in decimal,
zero-padded to four digits (after a minus sign when it is negative), then the month and the
day in decimal, zero-padded to two digits, with hyphens between them. -/
def isoDateSpec (date : Time) : List Char :=
  (if date.year < 0 then ['-'] else [])
    ++ List.leftpad 4 '0' (Nat.repr date.year.natAbs).toList ++ ['-']
    ++ List.leftpad 2 '0' (Nat.repr date.month).toList ++ ['-']
    ++ List.leftpad 2 '0' (Nat.repr date.day).toList

set_option maxRecDepth 100000

/-! ## Lemmas on strings -/

theorem len_eq_length_of_ascii (s : List Char) (h : ∀ r ∈ s, r.toNat ≤ 127) :
    len s = s.length := by
  induction s with
  | nil => rfl
  | cons a t ih =>
    have ha : a.toNat ≤ 127 := h a (List.mem_cons_self a t)
    have ht : len t = t.length := ih (fun r hr => h r (List.mem_cons_of_mem a hr))
    have h1 : a.utf8Size = 1 := by
      unfold Char.utf8Size
      rw [if_pos]
      show a.val.toNat ≤ 127
      exact ha
    simp only [len, List.map_cons, List.sum_cons, List.length_cons] at ht ⊢
    omega

theorem ToLower_ascii (caseTable : Char → Char) (s : List Char) (h : ∀ r ∈ s, r.toNat ≤ 127) :
    ToLower caseTable s = ToLower id s := by
  unfold ToLower
  apply List.map_congr_left
  intro r hr
  simp [toLowerRune, h r hr]

theorem deleteMatches_eq_filter (cls : Char → Bool) (s : List Char) :
    deleteMatches cls s = s.filter (fun r => !cls r) := by
  induction s with
  | nil => rfl
  | cons a t ih =>
    cases hc : cls a <;> simp [deleteMatches, List.filter_cons, hc, ih]

theorem mem_replaceRuns {α : Type} (cls : α → Bool) (repl : List α) (inRun : Bool) (s : List α)
    (r : α) (hr : r ∈ replaceRuns cls repl inRun s) : r ∈ repl ∨ (r ∈ s ∧ cls r = false) := by
  induction s generalizing inRun with
  | nil => simp [replaceRuns] at hr
  | cons a t ih =>
    cases hc : cls a
    · simp only [replaceRuns, hc, Bool.false_eq_true, if_false, List.mem_cons] at hr
      rcases hr with rfl | hr
      · exact Or.inr ⟨List.mem_cons_self _ _, hc⟩
      · rcases ih false hr with h | ⟨h1, h2⟩
        · exact Or.inl h
        · exact Or.inr ⟨List.mem_cons_of_mem _ h1, h2⟩
    · cases inRun
      · simp only [replaceRuns, hc, if_true, Bool.false_eq_true, if_false, List.mem_append] at hr
        rcases hr with hr | hr
        · exact Or.inl hr
        · rcases ih true hr with h | ⟨h1, h2⟩
          · exact Or.inl h
          · exact Or.inr ⟨List.mem_cons_of_mem _ h1, h2⟩
      · simp only [replaceRuns, hc, if_true] at hr
        rcases ih true hr with h | ⟨h1, h2⟩
        · exact Or.inl h
        · exact Or.inr ⟨List.mem_cons_of_mem _ h1, h2⟩

theorem replaceRuns_congr (cls₁ cls₂ : Char → Bool) (repl : List Char) (inRun : Bool)
    (s : List Char) (h : ∀ r ∈ s, cls₁ r = cls₂ r) :
    replaceRuns cls₁ repl inRun s = replaceRuns cls₂ repl inRun s := by
  induction s generalizing inRun with
  | nil => rfl
  | cons a t ih =>
    have ha : cls₁ a = cls₂ a := h a (List.mem_cons_self a t)
    have ht : ∀ b, replaceRuns cls₁ repl b t = replaceRuns cls₂ repl b t :=
      fun b => ih b (fun r hr => h r (List.mem_cons_of_mem a hr))
    simp only [replaceRuns, ha, ht]

theorem TrimRight_initial (s : List Char) (c : Char) : TrimRight s c <+: s := by
  unfold TrimRight
  have h : s.reverse.dropWhile (fun r => r == c) <:+ s.reverse := List.dropWhile_suffix _
  have h2 := List.reverse_prefix.mpr h
  simpa using h2

theorem TrimLeft_suffix (s : List Char) (c : Char) : TrimLeft s c <:+ s :=
  List.dropWhile_suffix _

theorem head?_dropWhile_ne (p : Char → Bool) (s : List Char) (c : Char) (hc : p c = true) :
    (s.dropWhile p).head? ≠ some c := by
  induction s with
  | nil => simp
  | cons a t ih =>
    cases ha : p a
    · simp only [List.dropWhile_cons, ha, Bool.false_eq_true, if_false, List.head?_cons]
      intro h
      have : a = c := Option.some.inj h
      rw [this, hc] at ha
      exact Bool.noConfusion ha
    · simpa [List.dropWhile_cons, ha] using ih

theorem TrimLeft_head? (s : List Char) (c : Char) : (TrimLeft s c).head? ≠ some c :=
  head?_dropWhile_ne _ s c (by simp)

theorem TrimRight_getLast? (s : List Char) (c : Char) : (TrimRight s c).getLast? ≠ some c := by
  unfold TrimRight
  rw [List.getLast?_reverse]
  exact head?_dropWhile_ne _ _ c (by simp)

theorem head?_of_initial {s t : List Char} (h : s <+: t) (hs : s ≠ []) : s.head? = t.head? := by
  obtain ⟨u, rfl⟩ := h
  cases s with
  | nil => exact absurd rfl hs
  | cons a s => rfl

theorem getLast?_of_suffix {s t : List Char} (h : s <:+ t) (hs : s ≠ []) :
    s.getLast? = t.getLast? := by
  have h1 : s.reverse <+: t.reverse := List.reverse_prefix.mpr h
  have h2 := head?_of_initial h1 (by simpa using hs)
  simpa [List.head?_reverse] using h2

theorem Trim_head? (s : List Char) (c : Char) : (Trim s c).head? ≠ some c :=
  TrimLeft_head? _ c

theorem Trim_getLast? (s : List Char) (c : Char) : (Trim s c).getLast? ≠ some c := by
  by_cases h : Trim s c = []
  · simp [h]
  · unfold Trim at h ⊢
    rw [getLast?_of_suffix (TrimLeft_suffix _ c) h]
    exact TrimRight_getLast? s c

theorem mem_Trim {s : List Char} {c r : Char} (h : r ∈ Trim s c) : r ∈ s :=
  (TrimRight_initial s c).subset ((TrimLeft_suffix _ c).subset h)


/-! ## Lemmas on `Index` and `TrimSpace` -/

theorem Index_of_not_infix (s sep : List Char) (hsep : sep ≠ []) (h : ¬ sep <:+: s) :
    Index s sep = -1 := by
  induction s with
  | nil => simp [Index, hsep]
  | cons c cs ih =>
    have hpre : sep.isPrefixOf (c :: cs) = false := by
      cases hp : sep.isPrefixOf (c :: cs)
      · rfl
      · exact absurd (List.isPrefixOf_iff_prefix.mp hp).isInfix h
    have hcs : Index cs sep = -1 :=
      ih (fun hi => h (List.infix_cons_iff.mpr (Or.inr hi)))
    simp [Index, hpre, hcs]

theorem Index_delimiter_first (y post : List Char) (hfree : ¬ frontmatterDelimiter <:+: y)
    (hlast : y.getLast? ≠ some '-') :
    Index (y ++ frontmatterDelimiter ++ post) frontmatterDelimiter = (y.length : Int) := by
  induction y with
  | nil => simp [Index, frontmatterDelimiter]
  | cons a t ih =>
    have hfree_t : ¬ frontmatterDelimiter <:+: t :=
      fun hi => hfree (List.infix_cons_iff.mpr (Or.inr hi))
    have hlast_t : t.getLast? ≠ some '-' := by
      cases t with
      | nil => simp
      | cons b u => simpa [List.getLast?_cons_cons] using hlast
    have ht := ih hfree_t hlast_t
    have hpre : frontmatterDelimiter.isPrefixOf (a :: t ++ frontmatterDelimiter ++ post) = false := by
      cases hp : frontmatterDelimiter.isPrefixOf (a :: t ++ frontmatterDelimiter ++ post)
      · rfl
      · exfalso
        have hp2 := List.isPrefixOf_iff_prefix.mp hp
        match t, hfree, hlast, hp2 with
        | [], _, hl, hp3 =>
          simp only [frontmatterDelimiter, List.cons_append, List.nil_append,
            List.cons_prefix_cons] at hp3
          exact hl (by simp [hp3.1.symm])
        | [b], _, hl, hp3 =>
          simp only [frontmatterDelimiter, List.cons_append, List.nil_append,
            List.cons_prefix_cons] at hp3
          exact hl (by simp [hp3.2.1.symm])
        | b :: c :: u, hf, _, hp3 =>
          simp only [frontmatterDelimiter, List.cons_append,
            List.cons_prefix_cons] at hp3
          apply hf
          refine ⟨[], u, ?_⟩
          simp only [frontmatterDelimiter, List.nil_append, List.cons_append]
          rw [← hp3.1, ← hp3.2.1, ← hp3.2.2.1]
    have hne : (t.length : Int) ≠ -1 := by omega
    have hstep : Index (a :: (t ++ frontmatterDelimiter ++ post)) frontmatterDelimiter
        = (t.length : Int) + 1 := by
      have hpre2 : frontmatterDelimiter.isPrefixOf (a :: (t ++ frontmatterDelimiter ++ post))
          = false := by simpa using hpre
      simp only [Index, hpre2, ht, Bool.false_eq_true, if_false]
      rw [if_neg hne]
    simpa using hstep

theorem TrimSpace_getLast? (s : List Char) (c : Char) (hc : isSpace c = true) :
    (TrimSpace s).getLast? ≠ some c := by
  unfold TrimSpace
  rw [List.getLast?_reverse]
  exact head?_dropWhile_ne _ _ c hc

theorem TrimSpace_cons_space (c : Char) (s : List Char) (hc : isSpace c = true) :
    TrimSpace (c :: s) = TrimSpace s := by
  simp [TrimSpace, List.dropWhile_cons, hc]

theorem rtrim_append (p : Char → Bool) (front back : List Char) (c : Char)
    (hlast : front.getLast? = some c) (hc : p c = false) :
    ((front ++ back).reverse.dropWhile p).reverse
      = front ++ (back.reverse.dropWhile p).reverse := by
  have hhead : front.reverse.head? = some c := by simpa using hlast
  have hfr : front.reverse.dropWhile p = front.reverse := by
    cases hr : front.reverse with
    | nil => simp [hr] at hhead
    | cons a u =>
      rw [hr] at hhead
      have : a = c := by simpa using hhead
      simp [List.dropWhile_cons, this, hc]
  rw [List.reverse_append, List.dropWhile_append]
  by_cases hb : (back.reverse.dropWhile p).isEmpty = true
  · have hnil : back.reverse.dropWhile p = [] := List.isEmpty_iff.mp hb
    simp [hb, hnil, hfr]
  · simp [hb]

theorem rtrim_cons {α : Type} [DecidableEq α] (p : α → Bool) (a : α) (t : List α) :
    ((a :: t).reverse.dropWhile p).reverse
      = if (t.reverse.dropWhile p).reverse = [] then (if p a then [] else [a])
        else a :: (t.reverse.dropWhile p).reverse := by
  rw [List.reverse_cons, List.dropWhile_append]
  by_cases hb : t.reverse.dropWhile p = []
  · cases hp : p a <;> simp [hb, List.dropWhile_cons, hp]
  · have hb2 : (t.reverse.dropWhile p).isEmpty = false := by
      cases h : t.reverse.dropWhile p with
      | nil => exact absurd h hb
      | cons x u => rfl
    simp [hb, hb2]

theorem dropWhile_rtrim_comm {α : Type} [DecidableEq α] (p : α → Bool) (s : List α) :
    (((s.reverse.dropWhile p).reverse).dropWhile p)
      = (((s.dropWhile p).reverse.dropWhile p).reverse) := by
  induction s with
  | nil => simp
  | cons a t ih =>
    cases hp : p a
    · have h1 : (a :: t).dropWhile p = a :: t := by simp [List.dropWhile_cons, hp]
      rw [h1, rtrim_cons]
      by_cases hb : (t.reverse.dropWhile p).reverse = []
      · simp [hb, hp, List.dropWhile_cons]
      · simp [hb, hp, List.dropWhile_cons]
    · have h1 : (a :: t).dropWhile p = t.dropWhile p := by simp [List.dropWhile_cons, hp]
      rw [h1, rtrim_cons, ← ih]
      by_cases hb : (t.reverse.dropWhile p).reverse = []
      · simp [hb, hp]
      · simp [hb, hp, List.dropWhile_cons]

theorem rtrim_idem (p : Char → Bool) (s : List Char) :
    (((s.reverse.dropWhile p).reverse).reverse.dropWhile p).reverse
      = (s.reverse.dropWhile p).reverse := by
  rw [List.reverse_reverse]
  congr 1
  cases h : s.reverse.dropWhile p with
  | nil => rfl
  | cons a u =>
    have hne : (s.reverse.dropWhile p).head? ≠ some a → False := fun hx => hx (by rw [h]; rfl)
    have hpa : p a = false := by
      cases hp : p a
      · rfl
      · exact absurd (head?_dropWhile_ne p s.reverse a hp) (fun hx => hne hx)
    simp [List.dropWhile_cons, hpa]

theorem TrimSpace_rtrim (s : List Char) :
    TrimSpace ((s.reverse.dropWhile isSpace).reverse) = TrimSpace s := by
  unfold TrimSpace
  rw [dropWhile_rtrim_comm isSpace s]
  exact rtrim_idem isSpace (s.dropWhile isSpace)

theorem Parse_body_getLast? (yamlUnmarshal : List Char → Except YamlError Frontmatter)
    (content : List Char) (c : Char) (hc : isSpace c = true) :
    (Parse yamlUnmarshal content).body.getLast? ≠ some c := by
  unfold Parse
  simp only
  split
  · exact TrimSpace_getLast? _ c hc
  · split
    · simp
    · split
      · simp
      · exact TrimSpace_getLast? _ c hc


/-! ## The metadata codec -/

theorem TrimSpace_header (y tail : List Char) :
    TrimSpace (frontmatterDelimiter ++ (y ++ frontmatterDelimiter ++ tail))
      = frontmatterDelimiter
          ++ (y ++ frontmatterDelimiter ++ (tail.reverse.dropWhile isSpace).reverse) := by
  have hdrop : (frontmatterDelimiter ++ (y ++ frontmatterDelimiter ++ tail)).dropWhile isSpace
      = (frontmatterDelimiter ++ y ++ frontmatterDelimiter) ++ tail := by
    have h0 : isSpace '-' = false := by decide
    simp [frontmatterDelimiter, List.dropWhile_cons, h0]
  unfold TrimSpace
  have hdash : (frontmatterDelimiter ++ y ++ frontmatterDelimiter).getLast? = some '-' := by
    rw [List.getLast?_append]
    rfl
  rw [hdrop, rtrim_append isSpace _ tail '-' hdash (by decide)]
  simp

/-- What `Parse` does with a header whose closing delimiter is the first `---` after the
opening one: the text between them goes to the decoder and the trimmed rest is the body. -/
theorem Parse_header (yamlUnmarshal : List Char → Except YamlError Frontmatter)
    (content y post : List Char)
    (hcontent : TrimSpace content = frontmatterDelimiter ++ (y ++ frontmatterDelimiter ++ post))
    (hfree : ¬ frontmatterDelimiter <:+: y) (hlast : y.getLast? ≠ some '-') :
    Parse yamlUnmarshal content =
      match yamlUnmarshal (TrimSpace y) with
      | Except.error e => ⟨none, [], some (ParseError.wrapped e)⟩
      | Except.ok fm => ⟨some fm, TrimSpace post, none⟩ := by
  have hidx := Index_delimiter_first y post hfree hlast
  have hpre : HasPrefix (frontmatterDelimiter ++ (y ++ frontmatterDelimiter ++ post))
      frontmatterDelimiter = true := by
    simp [HasPrefix]
  have hrest : (frontmatterDelimiter ++ (y ++ frontmatterDelimiter ++ post)).drop
      frontmatterDelimiter.length = y ++ frontmatterDelimiter ++ post := List.drop_left _ _
  have hne : (y.length : Int) ≠ -1 := by omega
  have htake : (y ++ frontmatterDelimiter ++ post).take y.length = y := by
    rw [List.append_assoc]
    exact List.take_left _ _
  have hdrop : (y ++ frontmatterDelimiter ++ post).drop (y.length + frontmatterDelimiter.length)
      = post := by
    exact List.drop_left' (by simp)
  unfold Parse
  simp only [hcontent, hpre, hrest, hidx, Bool.not_true, Bool.false_eq_true, if_false,
    if_neg hne, Int.toNat_ofNat, htake, hdrop]

/-- Claim C1, as amended.  For every frontmatter whose YAML text `yaml.Marshal` returns holds no
`---`, does not end in a hyphen and is accepted by the decoder, and for every body `b`,
`Parse(RenderWithContent(m, b))` succeeds with the decoded frontmatter and returns the body
`b` with its leading and trailing white space trimmed. -/
theorem Parse_RenderWithContent_body
    (yamlMarshal : Frontmatter → Except YamlError (List Char))
    (yamlUnmarshal : List Char → Except YamlError Frontmatter)
    (m decoded : Frontmatter) (b yamlBytes : List Char)
    (hmarshal : yamlMarshal m = Except.ok yamlBytes)
    (hfree : ¬ frontmatterDelimiter <:+: yamlBytes)
    (hlast : yamlBytes.getLast? ≠ some '-')
    (hdecode : yamlUnmarshal (TrimSpace yamlBytes) = Except.ok decoded) :
    ∃ rendered, RenderWithContent yamlMarshal m b = Except.ok rendered ∧
      Parse yamlUnmarshal rendered = ⟨some decoded, TrimSpace b, none⟩ := by
  refine ⟨['-', '-', '-', '\n'] ++ yamlBytes ++ ['-', '-', '-', '\n'] ++ ['\n'] ++ b, ?_, ?_⟩
  · simp [RenderWithContent, Render, hmarshal]
  · have hsp : isSpace '\n' = true := by decide
    have hshape : ['-', '-', '-', '\n'] ++ yamlBytes ++ ['-', '-', '-', '\n'] ++ ['\n'] ++ b
        = frontmatterDelimiter ++ (('\n' :: yamlBytes) ++ frontmatterDelimiter
            ++ ('\n' :: '\n' :: b)) := by
      simp [frontmatterDelimiter]
    have hfree2 : ¬ frontmatterDelimiter <:+: '\n' :: yamlBytes := by
      intro hi
      rcases List.infix_cons_iff.mp hi with hp | hi2
      · simp [frontmatterDelimiter] at hp
      · exact hfree hi2
    have hlast2 : ('\n' :: yamlBytes).getLast? ≠ some '-' := by
      rw [List.getLast?_cons]
      cases hl : yamlBytes.getLast? with
      | none => simp
      | some c =>
        rw [hl] at hlast
        simpa using hlast
    have hparse := Parse_header yamlUnmarshal
      (['-', '-', '-', '\n'] ++ yamlBytes ++ ['-', '-', '-', '\n'] ++ ['\n'] ++ b)
      ('\n' :: yamlBytes) ((('\n' :: '\n' :: b).reverse.dropWhile isSpace).reverse)
      (by rw [hshape]; exact TrimSpace_header _ _) hfree2 hlast2
    rw [hparse, TrimSpace_cons_space _ _ hsp, hdecode, TrimSpace_rtrim,
      TrimSpace_cons_space _ _ hsp, TrimSpace_cons_space _ _ hsp]

/-- The amended C1 at the frontmatter of `TestRender` and the body `"x\n"`: the body comes
back as `"x"`. -/
theorem Parse_RenderWithContent_body_witness :
    ∃ rendered,
      RenderWithContent (fun _ => Except.ok sampleYaml) sampleFrontmatter ['x', '\n']
        = Except.ok rendered ∧
      Parse (fun _ => Except.ok sampleFrontmatter) rendered
        = ⟨some sampleFrontmatter, TrimSpace ['x', '\n'], none⟩ :=
  Parse_RenderWithContent_body (fun _ => Except.ok sampleYaml)
    (fun _ => Except.ok sampleFrontmatter) sampleFrontmatter sampleFrontmatter ['x', '\n']
    sampleYaml rfl (by decide) (by decide) rfl

/-- Claim C1, counterexample.  For the body `"x\n"` no encoder, decoder or frontmatter makes
`Parse(RenderWithContent(m, b))` return a body identical to `b`: the body `Parse` returns
never ends in a newline. -/
theorem Parse_RenderWithContent_body_not_identical :
    ¬ ∃ (yamlMarshal : Frontmatter → Except YamlError (List Char))
        (yamlUnmarshal : List Char → Except YamlError Frontmatter)
        (m : Frontmatter) (rendered : List Char),
        RenderWithContent yamlMarshal m ['x', '\n'] = Except.ok rendered ∧
        (Parse yamlUnmarshal rendered).body = ['x', '\n'] := by
  rintro ⟨_, yamlUnmarshal, _, rendered, _, hbody⟩
  have h := Parse_body_getLast? yamlUnmarshal rendered '\n' (by decide)
  rw [hbody] at h
  exact h rfl

/-- Claim C2, at the failing input.  `Render` wraps the YAML text of the frontmatter with title
`a---b` between the delimiter lines, and `Parse` of that document ends the header at the `---`
inside the title: the decoder receives `title: a` only, and the rest of the header is returned
as the body. -/
theorem Parse_Render_dashed_title (yamlUnmarshal : List Char → Except YamlError Frontmatter)
    (m : Frontmatter) :
    Render (fun _ => Except.ok dashedTitleYaml) m
        = Except.ok ("---\n".toList ++ dashedTitleYaml ++ "---\n".toList) ∧
      Parse yamlUnmarshal ("---\n".toList ++ dashedTitleYaml ++ "---\n".toList) =
        match yamlUnmarshal "title: a".toList with
        | Except.error e => ⟨none, [], some (ParseError.wrapped e)⟩
        | Except.ok fm =>
          ⟨some fm, "b\ndate: 2026-01-10T14:30:00Z\nsource: chatgpt\n---".toList, none⟩ := by
  refine ⟨rfl, ?_⟩
  have hparse := Parse_header yamlUnmarshal ("---\n".toList ++ dashedTitleYaml ++ "---\n".toList)
    "\ntitle: a".toList "b\ndate: 2026-01-10T14:30:00Z\nsource: chatgpt\n---".toList
    (by decide) (by decide) (by decide)
  have h1 : TrimSpace "\ntitle: a".toList = "title: a".toList := by decide
  have h2 : TrimSpace "b\ndate: 2026-01-10T14:30:00Z\nsource: chatgpt\n---".toList
      = "b\ndate: 2026-01-10T14:30:00Z\nsource: chatgpt\n---".toList := by decide
  rw [hparse, h1, h2]

/-- Claim C3, as amended.  For every input whose white-space-trimmed form does not start with
the delimiter `---`, `Parse` returns no frontmatter, the trimmed input as the body, and no
error. -/
theorem Parse_no_frontmatter (yamlUnmarshal : List Char → Except YamlError Frontmatter)
    (x : List Char) (h : HasPrefix (TrimSpace x) frontmatterDelimiter = false) :
    Parse yamlUnmarshal x = ⟨none, TrimSpace x, none⟩ := by
  unfold Parse
  simp [h]

/-- The amended C3 at the content of `TestParseNoFrontmatter`. -/
theorem Parse_no_frontmatter_witness :
    HasPrefix (TrimSpace "# Just Markdown\n\nNo frontmatter here.".toList) frontmatterDelimiter
        = false ∧
      Parse (fun _ => Except.ok sampleFrontmatter) "# Just Markdown\n\nNo frontmatter here.".toList
        = ⟨none, TrimSpace "# Just Markdown\n\nNo frontmatter here.".toList, none⟩ :=
  ⟨by decide, Parse_no_frontmatter _ _ (by decide)⟩

/-- Claim C3, counterexample.  The input `" ---"` does not start with the delimiter, and `Parse`
fails on it with `ErrInvalidFrontmatter` instead of returning it trimmed as the body. -/
theorem Parse_leading_space_delimiter :
    HasPrefix [' ', '-', '-', '-'] frontmatterDelimiter = false ∧
      ∀ yamlUnmarshal : List Char → Except YamlError Frontmatter,
        Parse yamlUnmarshal [' ', '-', '-', '-']
          = ⟨none, [], some ParseError.ErrInvalidFrontmatter⟩ ∧
        Parse yamlUnmarshal [' ', '-', '-', '-']
          ≠ ⟨none, TrimSpace [' ', '-', '-', '-'], none⟩ := by
  refine ⟨by decide, fun yamlUnmarshal => ?_⟩
  have htrim : TrimSpace [' ', '-', '-', '-'] = ['-', '-', '-'] := by decide
  have hp : Parse yamlUnmarshal [' ', '-', '-', '-']
      = ⟨none, [], some ParseError.ErrInvalidFrontmatter⟩ := by
    unfold Parse
    simp [htrim, HasPrefix, frontmatterDelimiter, Index]
  refine ⟨hp, ?_⟩
  rw [hp]
  intro hx
  have := congrArg ParseResult.err hx
  simp at this

/-- Claim C4.  For every input whose white-space-trimmed form starts with `---` and holds no
further `---` after those three characters, `Parse` fails with `ErrInvalidFrontmatter` and
returns neither frontmatter nor body. -/
theorem Parse_unterminated_header (yamlUnmarshal : List Char → Except YamlError Frontmatter)
    (x : List Char) (hopen : HasPrefix (TrimSpace x) frontmatterDelimiter = true)
    (hclose : ¬ frontmatterDelimiter <:+: (TrimSpace x).drop 3) :
    Parse yamlUnmarshal x = ⟨none, [], some ParseError.ErrInvalidFrontmatter⟩ := by
  have hidx : Index ((TrimSpace x).drop frontmatterDelimiter.length) frontmatterDelimiter = -1 :=
    Index_of_not_infix _ _ (by simp [frontmatterDelimiter]) hclose
  unfold Parse
  simp [hopen, hidx]

/-- C4 at the input `--- title: x` of the specification. -/
theorem Parse_unterminated_header_witness :
    HasPrefix (TrimSpace "--- title: x".toList) frontmatterDelimiter = true ∧
      ¬ frontmatterDelimiter <:+: (TrimSpace "--- title: x".toList).drop 3 ∧
      Parse (fun _ => Except.ok sampleFrontmatter) "--- title: x".toList
        = ⟨none, [], some ParseError.ErrInvalidFrontmatter⟩ :=
  ⟨by decide, by decide, Parse_unterminated_header _ _ (by decide) (by decide)⟩

/-! ## Slugs -/

theorem toNat_le_of_not_slugRegexMatch (r : Char) (h : slugRegexMatch r = false) :
    r.toNat ≤ 127 := by
  by_cases hd : r = '-'
  · subst hd
    decide
  · simp [slugRegexMatch, isRegexSpace, hd] at h
    omega

theorem mem_hyphenated (caseTable : Char → Char) (title : List Char) (r : Char)
    (hr : r ∈ replaceRuns whitespaceRegexMatch ['-'] false
      (deleteMatches slugRegexMatch (ToLower caseTable title))) :
    r.toNat ≤ 127 := by
  rcases mem_replaceRuns _ _ _ _ r hr with h | ⟨h, _⟩
  · have : r = '-' := by simpa using h
    subst this
    decide
  · rw [deleteMatches_eq_filter] at h
    have h2 := (List.mem_filter.mp h).2
    exact toNat_le_of_not_slugRegexMatch r (by simpa using h2)

theorem slugUnlimited_ascii (caseTable : Char → Char) (title : List Char) :
    ∀ r ∈ slugUnlimited caseTable title, r.toNat ≤ 127 := by
  intro r hr
  exact mem_hyphenated caseTable title r (mem_Trim hr)

theorem slugUnlimited_head? (caseTable : Char → Char) (title : List Char) :
    (slugUnlimited caseTable title).head? ≠ some '-' :=
  Trim_head? _ _

theorem slugUnlimited_getLast? (caseTable : Char → Char) (title : List Char) :
    (slugUnlimited caseTable title).getLast? ≠ some '-' :=
  Trim_getLast? _ _

theorem GenerateSlug_initial (caseTable : Char → Char) (title : List Char) :
    GenerateSlug caseTable title <+: slugUnlimited caseTable title := by
  unfold GenerateSlug
  simp only
  split
  · exact (TrimRight_initial _ _).trans (List.take_prefix _ _)
  · exact List.prefix_refl _

theorem GenerateSlug_len_le (caseTable : Char → Char) (title : List Char) :
    len (GenerateSlug caseTable title) ≤ 50 := by
  have hascii : ∀ r ∈ GenerateSlug caseTable title, r.toNat ≤ 127 := fun r hr =>
    slugUnlimited_ascii caseTable title r ((GenerateSlug_initial caseTable title).subset hr)
  rw [len_eq_length_of_ascii _ hascii]
  unfold GenerateSlug
  simp only
  split
  · have h1 := (TrimRight_initial ((slugUnlimited caseTable title).take 50) '-').length_le
    have h2 := List.length_take_le 50 (slugUnlimited caseTable title)
    omega
  · rename_i h
    rw [len_eq_length_of_ascii _ (slugUnlimited_ascii caseTable title)] at h
    omega

theorem GenerateSlug_ascii_title (caseTable : Char → Char) (title : List Char)
    (h : ∀ r ∈ title, r.toNat ≤ 127) :
    GenerateSlug caseTable title = GenerateSlug id title := by
  unfold GenerateSlug slugUnlimited
  rw [ToLower_ascii caseTable title h]

theorem slugUnlimited_eq_spec (caseTable : Char → Char) (title : List Char) :
    slugUnlimited caseTable title = slugBeforeLimitSpec caseTable title := by
  unfold slugUnlimited slugBeforeLimitSpec ToLower Trim TrimLeft TrimRight List.rdropWhile
  simp only
  rw [deleteMatches_eq_filter]
  have hfilter : (fun r => !slugRegexMatch r) = (fun r : Char =>
      ('a'.toNat ≤ r.toNat && r.toNat ≤ 'z'.toNat) || ('0'.toNat ≤ r.toNat && r.toNat ≤ '9'.toNat)
        || isRegexSpace r || r = '-') := by
    funext r
    simp [slugRegexMatch]
  rw [hfilter]
  congr 4
  apply replaceRuns_congr
  intro r hr
  have hkeep := (List.mem_filter.mp hr).2
  have hne : r ≠ '_' := by
    intro he
    subst he
    revert hkeep
    decide
  simp [whitespaceRegexMatch, hne]

/-- Claim C5.  For every title the slug is at most 50 bytes long and neither starts nor ends
with a hyphen; the empty title gives the empty slug and `Hello World` gives `hello-world`. -/
theorem GenerateSlug_bounds (caseTable : Char → Char) (title : List Char) :
    len (GenerateSlug caseTable title) ≤ 50 ∧
      (GenerateSlug caseTable title).head? ≠ some '-' ∧
      (GenerateSlug caseTable title).getLast? ≠ some '-' ∧
      GenerateSlug caseTable "".toList = "".toList ∧
      GenerateSlug caseTable "Hello World".toList = "hello-world".toList := by
  refine ⟨GenerateSlug_len_le caseTable title, ?_, ?_, ?_, ?_⟩
  · by_cases hnil : GenerateSlug caseTable title = []
    · simp [hnil]
    · rw [head?_of_initial (GenerateSlug_initial caseTable title) hnil]
      exact slugUnlimited_head? caseTable title
  · unfold GenerateSlug
    simp only
    split
    · exact TrimRight_getLast? _ _
    · exact slugUnlimited_getLast? caseTable title
  · rfl
  · rw [GenerateSlug_ascii_title caseTable _ (by decide)]
    decide

/-- Claim C6, at the failing input.  An underscore between two words is deleted, not turned
into a hyphen: `hello_world` gives `helloworld`, while the run of spaces of
`Multiple   Spaces` gives one hyphen. -/
theorem GenerateSlug_underscore (caseTable : Char → Char) :
    GenerateSlug caseTable "hello_world".toList = "helloworld".toList ∧
      GenerateSlug caseTable "Multiple   Spaces".toList = "multiple-spaces".toList := by
  constructor
  · rw [GenerateSlug_ascii_title caseTable _ (by decide)]
    decide
  · rw [GenerateSlug_ascii_title caseTable _ (by decide)]
    decide

/-- Claim C7.  With `s` the slug before the length limit (the title lower-cased, the disallowed
runes removed, the runs of whitespace replaced by a hyphen, the outer hyphens trimmed), which
holds ASCII runes only: the slug is `s` when `len(s) <= 50` and otherwise the first 50 bytes of
`s` with every trailing hyphen removed, so that it does not end with a hyphen; it is a prefix of
`s` and at most 50 bytes long.  The 70-character title of the test gives
`a-very-long-title-that-should-be-truncated-to-fift`; a title whose 50th slug byte is the hyphen
between two words loses that hyphen; and a title whose slug bytes 49 and 50 belong to a run of
five hyphens loses both. -/
theorem GenerateSlug_truncation (caseTable : Char → Char) (title : List Char) :
    (∀ r ∈ slugBeforeLimitSpec caseTable title, r.toNat ≤ 127) ∧
      GenerateSlug caseTable title =
        (if len (slugBeforeLimitSpec caseTable title) ≤ 50 then slugBeforeLimitSpec caseTable title
         else ((slugBeforeLimitSpec caseTable title).take 50).rdropWhile (fun r => r == '-')) ∧
      (GenerateSlug caseTable title).getLast? ≠ some '-' ∧
      GenerateSlug caseTable title <+: slugBeforeLimitSpec caseTable title ∧
      len (GenerateSlug caseTable title) ≤ 50 ∧
      GenerateSlug caseTable
          "A Very Long Title That Should Be Truncated To Fifty Characters Maximum".toList
        = "a-very-long-title-that-should-be-truncated-to-fift".toList ∧
      GenerateSlug caseTable
          "Notes From The Quarterly Planning Review Sessions Held In Berlin".toList
        = "notes-from-the-quarterly-planning-review-sessions".toList ∧
      GenerateSlug caseTable
          "Notes From The Quarterly Planning Review Session - - Held \t In Berlin".toList
        = "notes-from-the-quarterly-planning-review-session".toList ∧
      slugBeforeLimitSpec caseTable
          "Notes From The Quarterly Planning Review Session - - Held \t In Berlin".toList
        = "notes-from-the-quarterly-planning-review-session-----held-in-berlin".toList := by
  rw [← slugUnlimited_eq_spec]
  refine ⟨slugUnlimited_ascii caseTable title, ?_, ?_, GenerateSlug_initial caseTable title,
    GenerateSlug_len_le caseTable title, ?_, ?_, ?_, ?_⟩
  · unfold GenerateSlug
    simp only
    by_cases h : len (slugUnlimited caseTable title) ≤ 50
    · rw [if_neg (by omega), if_pos h]
    · rw [if_pos (by omega), if_neg h]
      rfl
  · unfold GenerateSlug
    simp only
    split
    · exact TrimRight_getLast? _ _
    · exact slugUnlimited_getLast? caseTable title
  · rw [GenerateSlug_ascii_title caseTable _ (by decide)]
    decide
  · rw [GenerateSlug_ascii_title caseTable _ (by decide)]
    decide
  · rw [GenerateSlug_ascii_title caseTable _ (by decide)]
    decide
  · rw [← slugUnlimited_eq_spec]
    unfold slugUnlimited
    rw [ToLower_ascii caseTable _ (by decide)]
    decide

/-! ## Paths -/

theorem toDigitsCore_one (fuel n : Nat) (ds : List Char) (hf : 1 ≤ fuel) (hn : n < 10) :
    Nat.toDigitsCore 10 fuel n ds = Nat.digitChar n :: ds := by
  obtain ⟨f, rfl⟩ : ∃ f, fuel = f + 1 := ⟨fuel - 1, by omega⟩
  have h1 : n / 10 = 0 := by omega
  have h2 : n % 10 = n := by omega
  simp [Nat.toDigitsCore, h1, h2]

theorem toDigitsCore_two (fuel n : Nat) (ds : List Char) (hf : 2 ≤ fuel) (h1 : 10 ≤ n)
    (h2 : n < 100) :
    Nat.toDigitsCore 10 fuel n ds = Nat.digitChar (n / 10) :: Nat.digitChar (n % 10) :: ds := by
  obtain ⟨f, rfl⟩ : ∃ f, fuel = f + 1 := ⟨fuel - 1, by omega⟩
  have h3 : ¬ n / 10 = 0 := by omega
  simp only [Nat.toDigitsCore, h3, if_false]
  exact toDigitsCore_one f (n / 10) _ (by omega) (by omega)

theorem toDigitsCore_three (fuel n : Nat) (ds : List Char) (hf : 3 ≤ fuel) (h1 : 100 ≤ n)
    (h2 : n < 1000) :
    Nat.toDigitsCore 10 fuel n ds
      = Nat.digitChar (n / 100) :: Nat.digitChar (n / 10 % 10) :: Nat.digitChar (n % 10)
          :: ds := by
  obtain ⟨f, rfl⟩ : ∃ f, fuel = f + 1 := ⟨fuel - 1, by omega⟩
  have h3 : ¬ n / 10 = 0 := by omega
  simp only [Nat.toDigitsCore, h3, if_false]
  rw [toDigitsCore_two f (n / 10) _ (by omega) (by omega) (by omega)]
  have h4 : n / 10 / 10 = n / 100 := by omega
  rw [h4]

theorem toDigitsCore_four (fuel n : Nat) (ds : List Char) (hf : 4 ≤ fuel) (h1 : 1000 ≤ n)
    (h2 : n < 10000) :
    Nat.toDigitsCore 10 fuel n ds
      = Nat.digitChar (n / 1000) :: Nat.digitChar (n / 100 % 10)
          :: Nat.digitChar (n / 10 % 10) :: Nat.digitChar (n % 10) :: ds := by
  obtain ⟨f, rfl⟩ : ∃ f, fuel = f + 1 := ⟨fuel - 1, by omega⟩
  have h3 : ¬ n / 10 = 0 := by omega
  simp only [Nat.toDigitsCore, h3, if_false]
  rw [toDigitsCore_three f (n / 10) _ (by omega) (by omega) (by omega)]
  have h4 : n / 10 / 100 = n / 1000 := by omega
  have h5 : n / 10 / 10 % 10 = n / 100 % 10 := by omega
  rw [h4, h5]

theorem padDigits_two (u : Nat) (h : u < 100) :
    padDigits u 2 = [Nat.digitChar (u / 10), Nat.digitChar (u % 10)] := by
  unfold padDigits Nat.toDigits
  by_cases h1 : u < 10
  · rw [toDigitsCore_one (u + 1) u [] (by omega) h1]
    have h2 : u / 10 = 0 := by omega
    have h3 : u % 10 = u := by omega
    rw [h2, h3]
    rfl
  · rw [toDigitsCore_two (u + 1) u [] (by omega) (by omega) h]
    rfl

theorem padDigits_four (u : Nat) (h : u < 10000) :
    padDigits u 4 = [Nat.digitChar (u / 1000), Nat.digitChar (u / 100 % 10),
      Nat.digitChar (u / 10 % 10), Nat.digitChar (u % 10)] := by
  unfold padDigits Nat.toDigits
  by_cases h1 : u < 10
  · rw [toDigitsCore_one (u + 1) u [] (by omega) h1]
    have e1 : u / 1000 = 0 := by omega
    have e2 : u / 100 % 10 = 0 := by omega
    have e3 : u / 10 % 10 = 0 := by omega
    have e4 : u % 10 = u := by omega
    rw [e1, e2, e3, e4]
    rfl
  · by_cases h2 : u < 100
    · rw [toDigitsCore_two (u + 1) u [] (by omega) (by omega) h2]
      have e1 : u / 1000 = 0 := by omega
      have e2 : u / 100 % 10 = 0 := by omega
      have e3 : u / 10 % 10 = u / 10 := by omega
      rw [e1, e2, e3]
      rfl
    · by_cases h3 : u < 1000
      · rw [toDigitsCore_three (u + 1) u [] (by omega) (by omega) h3]
        have e1 : u / 1000 = 0 := by omega
        have e2 : u / 100 % 10 = u / 100 := by omega
        rw [e1, e2]
        rfl
      · rw [toDigitsCore_four (u + 1) u [] (by omega) (by omega) h]
        rfl

theorem formatDate_eq_spec (date : Time) : formatDate date = isoDateSpec date := by
  unfold formatDate isoDateSpec appendInt padDigits List.leftpad
  have hm : ((date.month : Int) < 0) = False := by
    apply propext
    constructor
    · intro h
      omega
    · intro h
      exact h.elim
  have hd : ((date.day : Int) < 0) = False := by
    apply propext
    constructor
    · intro h
      omega
    · intro h
      exact h.elim
  simp only [hm, hd, if_false, Int.natAbs_ofNat]
  split
  · rfl
  · rfl

theorem formatDate_digits (date : Time) (hy0 : 0 ≤ date.year) (hy1 : date.year ≤ 9999)
    (hm : date.month < 100) (hd : date.day < 100) :
    formatDate date =
      [Nat.digitChar (date.year.toNat / 1000), Nat.digitChar (date.year.toNat / 100 % 10),
        Nat.digitChar (date.year.toNat / 10 % 10), Nat.digitChar (date.year.toNat % 10), '-',
        Nat.digitChar (date.month / 10), Nat.digitChar (date.month % 10), '-',
        Nat.digitChar (date.day / 10), Nat.digitChar (date.day % 10)] := by
  have hyear : appendInt date.year 4 = padDigits date.year.toNat 4 := by
    unfold appendInt
    rw [if_neg (by omega)]
    congr 1
    omega
  have hmonth : appendInt (date.month : Int) 2 = padDigits date.month 2 := by
    unfold appendInt
    rw [if_neg (by omega)]
    rfl
  have hday : appendInt (date.day : Int) 2 = padDigits date.day 2 := by
    unfold appendInt
    rw [if_neg (by omega)]
    rfl
  unfold formatDate
  rw [hyear, hmonth, hday, padDigits_four _ (by omega), padDigits_two _ hm, padDigits_two _ hd]
  rfl

/-- Claim C8.  For every folder, source, title and date the path is
`folder/source/YYYY-MM-DD_slug.md`, where the date part is the year, the month and the day in
decimal, zero-padded to four, two and two digits (for a year from 0 to 9999 exactly the ten
characters `YYYY-MM-DD`); it does not depend on the time of day of the date; the inputs of
`TestGeneratePath` give `conversations/chatgpt/2026-01-10_hello-world.md`; and an empty title
gives a path ending in `_.md`. -/
theorem GeneratePath_format (caseTable : Char → Char) (folder source title : List Char)
    (date : Time) :
    GeneratePath caseTable folder source title date
        = folder ++ "/".toList ++ source ++ "/".toList ++ isoDateSpec date ++ "_".toList
            ++ GenerateSlug caseTable title ++ ".md".toList ∧
      (0 ≤ date.year → date.year ≤ 9999 → date.month < 100 → date.day < 100 →
        GeneratePath caseTable folder source title date
          = folder ++ "/".toList ++ source ++ "/".toList
            ++ [Nat.digitChar (date.year.toNat / 1000), Nat.digitChar (date.year.toNat / 100 % 10),
              Nat.digitChar (date.year.toNat / 10 % 10), Nat.digitChar (date.year.toNat % 10),
              '-', Nat.digitChar (date.month / 10), Nat.digitChar (date.month % 10),
              '-', Nat.digitChar (date.day / 10), Nat.digitChar (date.day % 10)]
            ++ "_".toList ++ GenerateSlug caseTable title ++ ".md".toList) ∧
      GeneratePath caseTable folder source title date
        = GeneratePath caseTable folder source title
            { date with hour := 0, minute := 0, second := 0, nanosecond := 0 } ∧
      GeneratePath caseTable "conversations".toList "chatgpt".toList "Hello World".toList
          ⟨2026, 1, 10, 14, 30, 0, 0⟩
        = "conversations/chatgpt/2026-01-10_hello-world.md".toList ∧
      "_.md".toList <:+ GeneratePath caseTable folder source "".toList date := by
  refine ⟨?_, ?_, rfl, ?_, ?_⟩
  · unfold GeneratePath
    simp only
    rw [formatDate_eq_spec]
    rfl
  · intro hy0 hy1 hm hd
    unfold GeneratePath
    simp only
    rw [formatDate_digits date hy0 hy1 hm hd]
    rfl
  · unfold GeneratePath
    rw [GenerateSlug_ascii_title caseTable _ (by decide)]
    decide
  · refine ⟨folder ++ "/".toList ++ source ++ "/".toList ++ formatDate date, ?_⟩
    have hslug : GenerateSlug caseTable "".toList = [] := rfl
    unfold GeneratePath
    rw [hslug]
    simp

/-- C8 at the inputs of `TestGeneratePath`: the date part is the ten characters `2026-01-10`. -/
theorem GeneratePath_format_witness :
    GeneratePath id "conversations".toList "chatgpt".toList "Hello World".toList
        ⟨2026, 1, 10, 14, 30, 0, 0⟩
      = "conversations".toList ++ "/".toList ++ "chatgpt".toList ++ "/".toList
        ++ [Nat.digitChar ((2026 : Int).toNat / 1000), Nat.digitChar ((2026 : Int).toNat / 100 % 10),
          Nat.digitChar ((2026 : Int).toNat / 10 % 10), Nat.digitChar ((2026 : Int).toNat % 10),
          '-', Nat.digitChar (1 / 10), Nat.digitChar (1 % 10),
          '-', Nat.digitChar (10 / 10), Nat.digitChar (10 % 10)]
        ++ "_".toList ++ GenerateSlug id "Hello World".toList ++ ".md".toList :=
  (GeneratePath_format id "conversations".toList "chatgpt".toList "Hello World".toList
    ⟨2026, 1, 10, 14, 30, 0, 0⟩).2.1 (by decide) (by decide) (by decide) (by decide)

/-! ## Sources -/

theorem ValidSource_iff (s : List Char) :
    ValidSource s = true ↔
      s ∈ ["chatgpt".toList, "claude".toList, "claude-code".toList, "gemini".toList,
        "perplexity".toList, "codex".toList] := by
  have h1 : "chatgpt".toList = SourceChatGPT := by decide
  have h2 : "claude".toList = SourceClaude := by decide
  have h3 : "claude-code".toList = SourceClaudeCode := by decide
  have h4 : "gemini".toList = SourceGemini := by decide
  have h5 : "perplexity".toList = SourcePerplexity := by decide
  have h6 : "codex".toList = SourceCodex := by decide
  rw [h1, h2, h3, h4, h5, h6]
  unfold ValidSource
  simp only [List.mem_cons, List.mem_singleton, List.mem_nil_iff, or_false]
  split <;> simp_all

/-- Claim C9.  `ValidSource(s)` is true exactly when `s` is one of `chatgpt`, `claude`,
`claude-code`, `gemini`, `perplexity`, `codex`; the comparison is case-sensitive, and the empty
string, `unknown`, `gpt4` and `ChatGPT` are rejected. -/
theorem ValidSource_exact (s : List Char) :
    (ValidSource s = true ↔
      s ∈ ["chatgpt".toList, "claude".toList, "claude-code".toList, "gemini".toList,
        "perplexity".toList, "codex".toList]) ∧
      ValidSource "".toList = false ∧ ValidSource "unknown".toList = false ∧
      ValidSource "gpt4".toList = false ∧ ValidSource "ChatGPT".toList = false :=
  ⟨ValidSource_iff s, by decide, by decide, by decide, by decide⟩

/-! ## Saving -/

/-- Claim C10.  For every storage and every input whose source is not one of the six platform
identifiers, `SaveConversation` returns an error and the empty output, and the storage is left
as it was: nothing is written. -/
theorem SaveConversation_invalid_source {σ : Type} (caseTable : Char → Char)
    (yamlMarshal : Frontmatter → Except YamlError (List Char)) (clock : SaveClock)
    (store : Storage σ) (input : SaveConversationInput)
    (h : input.Source ∉ ["chatgpt".toList, "claude".toList, "claude-code".toList,
      "gemini".toList, "perplexity".toList, "codex".toList]) :
    SaveConversation caseTable yamlMarshal clock store input
      = (store, ⟨[], []⟩, some (SaveError.invalidSource input.Source)) := by
  have hv : ValidSource input.Source = false := by
    cases hc : ValidSource input.Source
    · rfl
    · exact absurd ((ValidSource_iff _).mp hc) h
  unfold SaveConversation
  simp [hv]

/-- C10 at the source `ChatGPT` (wrong case) on a memory backend that holds one document. -/
theorem SaveConversation_invalid_source_witness :
    SaveConversation id (fun _ => Except.ok sampleYaml)
        ⟨⟨2026, 1, 10, 14, 30, 0, 0⟩, 1768055400000000000, ⟨2026, 1, 10, 14, 30, 0, 0⟩⟩
        ⟨memoryBackend, [("conversations/claude/2026-01-09_old.md".toList, "old".toList)],
          "conversations".toList⟩
        ⟨"Hello World".toList, "C".toList, "ChatGPT".toList, [], [], []⟩
      = (⟨memoryBackend, [("conversations/claude/2026-01-09_old.md".toList, "old".toList)],
          "conversations".toList⟩, ⟨[], []⟩, some (SaveError.invalidSource "ChatGPT".toList)) :=
  SaveConversation_invalid_source id _ _ _ _ (by decide)

/-! ## Storage backends -/

theorem find?_filter_ne (st : List (List Char × List Char)) (p q : List Char) (h : q ≠ p) :
    (st.filter (fun e => e.1 ≠ p)).find? (fun e => e.1 = q) = st.find? (fun e => e.1 = q) := by
  induction st with
  | nil => rfl
  | cons a t ih =>
    by_cases ha : a.1 = p
    · have hq : ¬ a.1 = q := fun hx => h (hx.symm.trans ha)
      rw [List.filter_cons_of_neg (by simpa using ha), List.find?_cons_of_neg _ (by simpa using hq)]
      exact ih
    · rw [List.filter_cons_of_pos (by simpa using ha)]
      by_cases hq : a.1 = q
      · rw [List.find?_cons_of_pos _ (by simpa using hq),
          List.find?_cons_of_pos _ (by simpa using hq)]
      · rw [List.find?_cons_of_neg _ (by simpa using hq),
          List.find?_cons_of_neg _ (by simpa using hq)]
        exact ih

theorem any_filter_ne (st : List (List Char × List Char)) (p q : List Char) (h : q ≠ p) :
    (st.filter (fun e => e.1 ≠ p)).any (fun e => e.1 = q) = st.any (fun e => e.1 = q) := by
  induction st with
  | nil => rfl
  | cons a t ih =>
    by_cases ha : a.1 = p
    · have hq : decide (a.1 = q) = false := decide_eq_false (fun hx => h (hx.symm.trans ha))
      rw [List.filter_cons_of_neg (by simpa using ha), List.any_cons, hq, ih]
      rfl
    · rw [List.filter_cons_of_pos (by simpa using ha), List.any_cons, List.any_cons, ih]

theorem any_filter_same (st : List (List Char × List Char)) (p : List Char) :
    (st.filter (fun e => e.1 ≠ p)).any (fun e => e.1 = p) = false := by
  rw [List.any_eq_false]
  intro x hx
  have := (List.mem_filter.mp hx).2
  simpa using this

theorem memoryBackend_lawful : memoryBackend.Lawful where
  read_write := by
    intro st st' p c h
    have hst : st' = (p, c) :: st.filter (fun e => e.1 ≠ p) := (congrArg Prod.fst h).symm
    subst hst
    show (match ((p, c) :: st.filter (fun e => e.1 ≠ p)).find? (fun e => e.1 = p) with
      | some e => Except.ok e.2
      | none => Except.error ⟨['n', 'o', 't', ' ', 'f', 'o', 'u', 'n', 'd']⟩)
      = (Except.ok c : Except BackendError (List Char))
    rw [List.find?_cons_of_pos _ (by simp)]
  read_write_other := by
    intro st st' p c q h hq
    have hst : st' = (p, c) :: st.filter (fun e => e.1 ≠ p) := (congrArg Prod.fst h).symm
    subst hst
    have hpq : ¬ p = q := fun hx => hq hx.symm
    show (match ((p, c) :: st.filter (fun e => e.1 ≠ p)).find? (fun e => e.1 = q) with
      | some e => Except.ok e.2
      | none => Except.error ⟨['n', 'o', 't', ' ', 'f', 'o', 'u', 'n', 'd']⟩)
      = (match st.find? (fun e => e.1 = q) with
      | some e => (Except.ok e.2 : Except BackendError (List Char))
      | none => Except.error ⟨['n', 'o', 't', ' ', 'f', 'o', 'u', 'n', 'd']⟩)
    rw [List.find?_cons_of_neg _ (by simpa using hpq), find?_filter_ne st p q hq]
  exists_write_other := by
    intro st st' p c q h hq
    have hst : st' = (p, c) :: st.filter (fun e => e.1 ≠ p) := (congrArg Prod.fst h).symm
    subst hst
    have hpq : decide (p = q) = false := decide_eq_false (fun hx => hq hx.symm)
    show (Except.ok (((p, c) :: st.filter (fun e => e.1 ≠ p)).any (fun e => e.1 = q))
      : Except BackendError Bool) = Except.ok (st.any (fun e => e.1 = q))
    rw [List.any_cons, any_filter_ne st p q hq]
    show Except.ok (decide (p = q) || _) = _
    rw [hpq]
    rfl
  exists_delete := by
    intro st st' p h
    have hst : st' = st.filter (fun e => e.1 ≠ p) := (congrArg Prod.fst h).symm
    subst hst
    show (Except.ok ((st.filter (fun e => e.1 ≠ p)).any (fun e => e.1 = p))
      : Except BackendError Bool) = Except.ok false
    rw [any_filter_same st p]
  exists_delete_other := by
    intro st st' p q h hq
    have hst : st' = st.filter (fun e => e.1 ≠ p) := (congrArg Prod.fst h).symm
    subst hst
    show (Except.ok ((st.filter (fun e => e.1 ≠ p)).any (fun e => e.1 = q))
      : Except BackendError Bool) = Except.ok (st.any (fun e => e.1 = q))
    rw [any_filter_ne st p q hq]
  read_delete_other := by
    intro st st' p q h hq
    have hst : st' = st.filter (fun e => e.1 ≠ p) := (congrArg Prod.fst h).symm
    subst hst
    show (match (st.filter (fun e => e.1 ≠ p)).find? (fun e => e.1 = q) with
      | some e => Except.ok e.2
      | none => Except.error ⟨['n', 'o', 't', ' ', 'f', 'o', 'u', 'n', 'd']⟩)
      = (match st.find? (fun e => e.1 = q) with
      | some e => (Except.ok e.2 : Except BackendError (List Char))
      | none => Except.error ⟨['n', 'o', 't', ' ', 'f', 'o', 'u', 'n', 'd']⟩)
    rw [find?_filter_ne st p q hq]

/-! ## Machine integers -/

theorem wrapInt_of_range (x : Int) (h1 : minInt ≤ x) (h2 : x ≤ maxInt) : wrapInt x = x := by
  unfold wrapInt
  unfold minInt at h1
  unfold maxInt at h2
  omega

/-! ## Appending -/

/-- Claim C11, as amended.  When path `p` holds a document that parses to the frontmatter `fm`
with body `b`, `fm.MessageCount` is an `int` below the largest one, the rendering succeeds and
the storage write succeeds, `AppendConversation(p, c)` returns `Path = p` and
`MessageCount = fm.MessageCount + 1`, and its only effect on the storage is one write at `p`
of `RenderWithContent` of `fm` changed in `LastMod` (now) and `MessageCount` (plus one) only,
over the body `b ++ "\n\n" ++ c`: on a lawful backend `p` then reads as that document and every
other path reads as before. -/
theorem AppendConversation_with_frontmatter {σ : Type}
    (yamlMarshal : Frontmatter → Except YamlError (List Char))
    (yamlUnmarshal : List Char → Except YamlError Frontmatter) (now : Time)
    (store : Storage σ) (input : AppendConversationInput) (existing body updated : List Char)
    (fm : Frontmatter) (st' : σ)
    (hlaw : store.backend.Lawful)
    (hread : store.Read input.Path = Except.ok existing)
    (hparse : Parse yamlUnmarshal existing = ⟨some fm, body, none⟩)
    (hcount : minInt ≤ fm.MessageCount ∧ fm.MessageCount < maxInt)
    (hrender : RenderWithContent yamlMarshal
        { fm with LastMod := now, MessageCount := fm.MessageCount + 1 }
        (body ++ (['\n', '\n'] ++ input.Content)) = Except.ok updated)
    (hwrite : store.backend.write store.state input.Path updated = (st', none)) :
    AppendConversation yamlMarshal yamlUnmarshal now store input
        = ({ store with state := st' }, ⟨input.Path, fm.MessageCount + 1⟩, none) ∧
      store.backend.read st' input.Path = Except.ok updated ∧
      ∀ q, q ≠ input.Path → store.backend.read st' q = store.backend.read store.state q := by
  have hwrap : wrapInt (fm.MessageCount + 1) = fm.MessageCount + 1 :=
    wrapInt_of_range _ (by omega) (by omega)
  refine ⟨?_, hlaw.read_write _ _ _ _ hwrite, fun q hq => hlaw.read_write_other _ _ _ _ q hwrite hq⟩
  unfold AppendConversation
  simp only [hread, hparse, hwrap, hrender, Storage.Save, hwrite]

/-- The amended C11 on the storage in memory: appending `more` to the sample document, whose
frontmatter has the message count 0, returns the count 1. -/
theorem AppendConversation_with_frontmatter_witness :
    (AppendConversation (fun _ => Except.ok sampleYaml) (fun _ => Except.ok sampleFrontmatter)
        ⟨2026, 1, 11, 9, 0, 0, 0⟩ sampleStore ⟨samplePath, "more".toList⟩).2
      = (⟨samplePath, 1⟩, none) := by
  have h := AppendConversation_with_frontmatter (fun _ => Except.ok sampleYaml)
    (fun _ => Except.ok sampleFrontmatter) ⟨2026, 1, 11, 9, 0, 0, 0⟩ sampleStore
    ⟨samplePath, "more".toList⟩ sampleDocument "Hi".toList
    ("---\n".toList ++ sampleYaml ++ "---\n".toList ++ "\n".toList
      ++ ("Hi".toList ++ ("\n\n".toList ++ "more".toList)))
    sampleFrontmatter
    [(samplePath, "---\n".toList ++ sampleYaml ++ "---\n".toList ++ "\n".toList
      ++ ("Hi".toList ++ ("\n\n".toList ++ "more".toList)))]
    memoryBackend_lawful (by rfl) (by decide) (by decide) (by rfl) (by decide)
  rw [h.1]
  rfl

/-- Claim C11, counterexample.  The sample document parsed to a frontmatter whose message
count is the largest `int`: the append succeeds and returns the smallest `int`, not the count
plus one. -/
theorem AppendConversation_count_wraps :
    Parse (fun _ => Except.ok { sampleFrontmatter with MessageCount := maxInt }) sampleDocument
        = ⟨some { sampleFrontmatter with MessageCount := maxInt }, "Hi".toList, none⟩ ∧
      (AppendConversation (fun _ => Except.ok sampleYaml)
          (fun _ => Except.ok { sampleFrontmatter with MessageCount := maxInt })
          ⟨2026, 1, 11, 9, 0, 0, 0⟩ sampleStore ⟨samplePath, "more".toList⟩).2
        = (⟨samplePath, minInt⟩, none) ∧
      minInt ≠ maxInt + 1 := by
  refine ⟨by decide, by decide, by decide⟩

/-! ## Deleting -/

/-- Claim C12.  On a lawful backend: when the path does not exist, `DeleteConversation` returns
`Deleted = false` with a non-empty message and no error and leaves the storage as it was; when
the path exists and the backend delete succeeds, it returns `Deleted = true` with no error,
afterwards the path does not exist and every other path exists and reads as before, and a
second delete of the same path returns `Deleted = false` with no error. -/
theorem DeleteConversation_outcomes {σ : Type} (store : Storage σ)
    (input : DeleteConversationInput) (hlaw : store.backend.Lawful) :
    (store.Exists input.Path = Except.ok false →
      DeleteConversation store input
          = (store, ⟨false, "conversation not found: ".toList ++ input.Path⟩, none) ∧
        "conversation not found: ".toList ++ input.Path ≠ []) ∧
    (∀ st', store.Exists input.Path = Except.ok true →
      store.backend.delete store.state input.Path = (st', none) →
      DeleteConversation store input
          = ({ store with state := st' }, ⟨true, "deleted: ".toList ++ input.Path⟩, none) ∧
        Storage.Exists { store with state := st' } input.Path = Except.ok false ∧
        (∀ q, q ≠ input.Path →
          Storage.Exists { store with state := st' } q = store.Exists q ∧
          Storage.Read { store with state := st' } q = store.Read q) ∧
        DeleteConversation { store with state := st' } input
          = ({ store with state := st' },
              ⟨false, "conversation not found: ".toList ++ input.Path⟩, none)) := by
  constructor
  · intro hex
    constructor
    · unfold DeleteConversation
      simp [hex]
    · simp
  · intro st' hex hdel
    have hgone : Storage.Exists { store with state := st' } input.Path = Except.ok false :=
      hlaw.exists_delete _ _ _ hdel
    refine ⟨?_, hgone, ?_, ?_⟩
    · unfold DeleteConversation
      simp [hex, Storage.Delete, hdel]
    · intro q hq
      constructor
      · exact hlaw.exists_delete_other _ _ _ q hdel hq
      · unfold Storage.Read
        have := hlaw.read_delete_other _ _ _ q hdel hq
        simp only [this]
    · unfold DeleteConversation
      simp [hgone]

/-- C12 on the storage in memory: deleting a path that is not stored, and deleting the stored
path twice. -/
theorem DeleteConversation_outcomes_witness :
    DeleteConversation sampleStore ⟨"conversations/none.md".toList⟩
        = (sampleStore,
            ⟨false, "conversation not found: ".toList ++ "conversations/none.md".toList⟩, none) ∧
      DeleteConversation sampleStore ⟨samplePath⟩
        = ({ sampleStore with state := [] }, ⟨true, "deleted: ".toList ++ samplePath⟩, none) ∧
      DeleteConversation { sampleStore with state := [] } ⟨samplePath⟩
        = ({ sampleStore with state := [] },
            ⟨false, "conversation not found: ".toList ++ samplePath⟩, none) :=
  ⟨((DeleteConversation_outcomes sampleStore ⟨"conversations/none.md".toList⟩
      memoryBackend_lawful).1 (by rfl)).1,
    ((DeleteConversation_outcomes sampleStore ⟨samplePath⟩ memoryBackend_lawful).2 []
      (by rfl) (by decide)).1,
    ((DeleteConversation_outcomes sampleStore ⟨samplePath⟩ memoryBackend_lawful).2 []
      (by rfl) (by decide)).2.2.2⟩

/-! ## Listing -/

/-- The page of `ListConversations` when the offset is not negative and `start + limit` does
not overflow: the `.md` entries from `min(offset, n)` up to `min(start + limit, n)`. -/
theorem ListConversations_page {σ : Type} (pathJoin : List Char → List Char → List Char)
    (yamlUnmarshal : List Char → Except YamlError Frontmatter) (store : Storage σ)
    (input : ListConversationsInput) (files : List (List Char))
    (hlist : (if input.Source ≠ [] then store.ListBySource pathJoin input.Source
      else store.ListConversations) = Except.ok files)
    (hoffset : 0 ≤ input.Offset)
    (hlimit : min input.Offset ((files.filter (fun f => HasSuffix f mdSuffix)).length : Int)
      + (if input.Limit ≤ 0 then defaultListLimit else input.Limit) ≤ maxInt) :
    ListConversations pathJoin yamlUnmarshal store input =
      some (⟨buildSummaries yamlUnmarshal store
          (((files.filter (fun f => HasSuffix f mdSuffix)).drop
              (min input.Offset
                ((files.filter (fun f => HasSuffix f mdSuffix)).length : Int)).toNat).take
            ((min (min input.Offset
                  ((files.filter (fun f => HasSuffix f mdSuffix)).length : Int)
                + (if input.Limit ≤ 0 then defaultListLimit else input.Limit))
                ((files.filter (fun f => HasSuffix f mdSuffix)).length : Int)).toNat
              - (min input.Offset
                  ((files.filter (fun f => HasSuffix f mdSuffix)).length : Int)).toNat)),
        ((files.filter (fun f => HasSuffix f mdSuffix)).length : Int),
        decide (min input.Offset ((files.filter (fun f => HasSuffix f mdSuffix)).length : Int)
          + (if input.Limit ≤ 0 then defaultListLimit else input.Limit)
          < ((files.filter (fun f => HasSuffix f mdSuffix)).length : Int))⟩, none) := by
  generalize hmd : files.filter (fun f => HasSuffix f mdSuffix) = mdFiles at hlimit ⊢
  generalize hl : (if input.Limit ≤ 0 then defaultListLimit else input.Limit) = limit
    at hlimit ⊢
  have hlpos : 0 < limit := by
    rw [← hl]
    split
    · decide
    · omega
  have hstart : (if input.Offset > (mdFiles.length : Int) then (mdFiles.length : Int)
      else input.Offset) = min input.Offset (mdFiles.length : Int) := by
    split
    · rw [min_eq_right (by omega)]
    · rw [min_eq_left (by omega)]
  generalize hs : min input.Offset (mdFiles.length : Int) = start at hlimit hstart ⊢
  have hs0 : 0 ≤ start := by
    rw [← hs]
    exact le_min hoffset (by omega)
  have hwrap : wrapInt (start + limit) = start + limit :=
    wrapInt_of_range _ (by unfold minInt; omega) hlimit
  have hstop : (if start + limit > (mdFiles.length : Int) then (mdFiles.length : Int)
      else start + limit) = min (start + limit) (mdFiles.length : Int) := by
    split
    · rw [min_eq_right (by omega)]
    · rw [min_eq_left (by omega)]
  have hsn : start ≤ (mdFiles.length : Int) := by
    rw [← hs]
    exact min_le_right _ _
  have hle : start ≤ min (start + limit) (mdFiles.length : Int) := le_min (by omega) hsn
  have hmore : decide (min (start + limit) (mdFiles.length : Int) < (mdFiles.length : Int))
      = decide (start + limit < (mdFiles.length : Int)) := by
    congr 1
    apply propext
    constructor
    · intro h
      rcases min_lt_iff.mp h with h1 | h1
      · exact h1
      · omega
    · intro h
      exact min_lt_iff.mpr (Or.inl h)
  unfold ListConversations
  simp only [hlist, hmd, hl, hstart, hs, hwrap, hstop, hs0, hle, and_self, if_true, hmore]

/-- Claim C13, at the failing input.  With five documents, limit 2 and offset 4 give one
result and no more, limit 2 and offset 0 give two results and more; with offset 1 and the
largest `int` as limit, `start + limit` wraps around and the slice expression panics. -/
theorem ListConversations_limit_overflow (pathJoin : List Char → List Char → List Char)
    (yamlUnmarshal : List Char → Except YamlError Frontmatter) :
    ListConversations pathJoin yamlUnmarshal fiveStore ⟨[], 2, 4⟩
        = some (⟨[⟨"c/5.md".toList, [], [], [], [], []⟩], 5, false⟩, none) ∧
      ListConversations pathJoin yamlUnmarshal fiveStore ⟨[], 2, 0⟩
        = some (⟨[⟨"c/1.md".toList, [], [], [], [], []⟩, ⟨"c/2.md".toList, [], [], [], [], []⟩],
            5, true⟩, none) ∧
      ListConversations pathJoin yamlUnmarshal fiveStore ⟨[], maxInt, 1⟩ = none :=
  ⟨rfl, rfl, rfl⟩

/-- Claim C14, at the failing inputs.  A negative offset is not clamped: with offset -1 the
slice expression panics; and with offset 1 and the largest `int` as limit the sum
`start + limit` wraps around to a negative end and the slice expression panics. -/
theorem ListConversations_bounds_panic (pathJoin : List Char → List Char → List Char)
    (yamlUnmarshal : List Char → Except YamlError Frontmatter) :
    ListConversations pathJoin yamlUnmarshal sampleStore ⟨[], 2, -1⟩ = none ∧
      ListConversations pathJoin yamlUnmarshal sampleStore ⟨[], maxInt, 1⟩ = none :=
  ⟨rfl, rfl⟩

theorem getConversationSummary_path {σ : Type}
    (yamlUnmarshal : List Char → Except YamlError Frontmatter) (store : Storage σ)
    (filePath : List Char) (summary : ConversationSummary)
    (h : getConversationSummary yamlUnmarshal store filePath = Except.ok summary) :
    summary.Path = filePath ∧ store.readable filePath = true := by
  unfold getConversationSummary at h
  unfold Storage.readable
  cases hr : store.Read filePath with
  | error e => simp [hr] at h
  | ok content =>
    rw [hr] at h
    dsimp only at h ⊢
    rcases hp : Parse yamlUnmarshal content with ⟨fm, body, err⟩
    rw [hp] at h
    cases err with
    | some e =>
      simp only [Except.ok.injEq] at h
      subst h
      exact ⟨rfl, rfl⟩
    | none =>
      cases fm with
      | none =>
        simp only [Except.ok.injEq] at h
        subst h
        exact ⟨rfl, rfl⟩
      | some f =>
        simp only [Except.ok.injEq] at h
        subst h
        exact ⟨rfl, rfl⟩

theorem getConversationSummary_unreadable {σ : Type}
    (yamlUnmarshal : List Char → Except YamlError Frontmatter) (store : Storage σ)
    (filePath : List Char) (h : store.readable filePath = false) :
    ∃ e, getConversationSummary yamlUnmarshal store filePath = Except.error e := by
  unfold Storage.readable at h
  unfold getConversationSummary
  cases hr : store.Read filePath with
  | error e => exact ⟨e, rfl⟩
  | ok content => simp [hr] at h

theorem getConversationSummary_unparsed {σ : Type}
    (yamlUnmarshal : List Char → Except YamlError Frontmatter) (store : Storage σ)
    (filePath content : List Char) (hread : store.Read filePath = Except.ok content)
    (hparse : (Parse yamlUnmarshal content).err ≠ none ∨ (Parse yamlUnmarshal content).fm = none) :
    getConversationSummary yamlUnmarshal store filePath
      = Except.ok ⟨filePath, [], [], [], [], []⟩ := by
  unfold getConversationSummary
  rw [hread]
  dsimp only
  rcases hp : Parse yamlUnmarshal content with ⟨fm, body, err⟩
  rw [hp] at hparse
  cases err with
  | some e => cases fm <;> rfl
  | none =>
    cases fm with
    | none => rfl
    | some f => simp at hparse

theorem buildSummaries_paths {σ : Type}
    (yamlUnmarshal : List Char → Except YamlError Frontmatter) (store : Storage σ)
    (files : List (List Char)) :
    (buildSummaries yamlUnmarshal store files).map (fun s => s.Path)
      = files.filter (fun f => store.readable f) := by
  induction files with
  | nil => rfl
  | cons f rest ih =>
    unfold buildSummaries
    cases hs : getConversationSummary yamlUnmarshal store f with
    | error e =>
      have hr : store.readable f = false := by
        cases hx : store.readable f
        · rfl
        · exfalso
          unfold Storage.readable at hx
          unfold getConversationSummary at hs
          cases hread : store.Read f with
          | error e2 => simp [hread] at hx
          | ok content =>
            rw [hread] at hs
            dsimp only at hs
            rcases hp : Parse yamlUnmarshal content with ⟨fm, body, err⟩
            rw [hp] at hs
            cases err <;> cases fm <;> simp at hs
      simp only [List.filter_cons, hr, Bool.false_eq_true, if_false]
      exact ih
    | ok summary =>
      have h := getConversationSummary_path yamlUnmarshal store f summary hs
      simp only [List.map_cons, List.filter_cons, h.1, h.2, if_true, ih]

theorem mem_buildSummaries {σ : Type}
    (yamlUnmarshal : List Char → Except YamlError Frontmatter) (store : Storage σ)
    (files : List (List Char)) (f : List Char) (summary : ConversationSummary)
    (hf : f ∈ files) (hs : getConversationSummary yamlUnmarshal store f = Except.ok summary) :
    summary ∈ buildSummaries yamlUnmarshal store files := by
  induction files with
  | nil => simp at hf
  | cons g rest ih =>
    unfold buildSummaries
    rcases List.mem_cons.mp hf with hfg | hrest
    · subst hfg
      rw [hs]
      exact List.mem_cons_self _ _
    · cases hg : getConversationSummary yamlUnmarshal store g with
      | error e => exact ih hrest
      | ok s => exact List.mem_cons_of_mem _ (ih hrest)

/-- Claim C15, as amended.  When the listing succeeds, the offset is not negative and
`start + limit` does not overflow, `ListConversations` succeeds; the summaries it returns are,
in listing order, those of the page entries that can be read: an entry that fails to read is
skipped, and an entry that is read but fails to parse, or has no frontmatter, contributes a
summary that holds its path only. -/
theorem ListConversations_entry_failures {σ : Type}
    (pathJoin : List Char → List Char → List Char)
    (yamlUnmarshal : List Char → Except YamlError Frontmatter) (store : Storage σ)
    (input : ListConversationsInput) (files : List (List Char))
    (hlist : (if input.Source ≠ [] then store.ListBySource pathJoin input.Source
      else store.ListConversations) = Except.ok files)
    (hoffset : 0 ≤ input.Offset)
    (hlimit : min input.Offset ((files.filter (fun f => HasSuffix f mdSuffix)).length : Int)
      + (if input.Limit ≤ 0 then defaultListLimit else input.Limit) ≤ maxInt) :
    ∃ conversations hasMore,
      ListConversations pathJoin yamlUnmarshal store input
        = some (⟨conversations, ((files.filter (fun f => HasSuffix f mdSuffix)).length : Int),
            hasMore⟩, none) ∧
      conversations.map (fun s => s.Path)
        = (pageSpec (files.filter (fun f => HasSuffix f mdSuffix)) input.Offset
            (if input.Limit ≤ 0 then defaultListLimit else input.Limit)).filter
              (fun f => store.readable f) ∧
      ∀ f content,
        f ∈ pageSpec (files.filter (fun f => HasSuffix f mdSuffix)) input.Offset
          (if input.Limit ≤ 0 then defaultListLimit else input.Limit) →
        store.Read f = Except.ok content →
        ((Parse yamlUnmarshal content).err ≠ none ∨ (Parse yamlUnmarshal content).fm = none) →
        (⟨f, [], [], [], [], []⟩ : ConversationSummary) ∈ conversations := by
  have hpage := ListConversations_page pathJoin yamlUnmarshal store input files hlist hoffset
    hlimit
  refine ⟨_, _, hpage, ?_, ?_⟩
  · exact buildSummaries_paths yamlUnmarshal store _
  · intro f content hf hread hparse
    exact mem_buildSummaries yamlUnmarshal store _ f _ hf
      (getConversationSummary_unparsed yamlUnmarshal store f content hread hparse)

/-- The amended C15 on the storage that lists an unterminated document, an unreadable path and
the sample document. -/
theorem ListConversations_entry_failures_witness :
    ∃ conversations hasMore,
      ListConversations (fun a b => a ++ '/' :: b) (fun _ => Except.ok sampleFrontmatter)
          ghostStore ⟨[], 0, 0⟩
        = some (⟨conversations, 3, hasMore⟩, none) ∧
      conversations.map (fun s => s.Path) = ["c/a.md".toList, "c/b.md".toList] ∧
      (⟨"c/a.md".toList, [], [], [], [], []⟩ : ConversationSummary) ∈ conversations := by
  obtain ⟨conversations, hasMore, h1, h2, h3⟩ :=
    ListConversations_entry_failures (fun a b => a ++ '/' :: b)
      (fun _ => Except.ok sampleFrontmatter) ghostStore ⟨[], 0, 0⟩
      ["c/a.md".toList, "c/ghost.md".toList, "c/b.md".toList] (by rfl) (by decide) (by decide)
  refine ⟨conversations, hasMore, h1, ?_, ?_⟩
  · rw [h2]
    decide
  · exact h3 "c/a.md".toList "--- title: x".toList (by decide) (by rfl) (by decide)

/-- Claim C15, counterexample.  The document `c/a.md`, whose header opens and never closes,
fails to parse, and `ListConversations` does not skip it: it returns a summary with its path,
before the summary of the sample document; the unreadable `c/ghost.md` is skipped. -/
theorem ListConversations_unparsed_not_skipped :
    (Parse (fun _ => Except.ok sampleFrontmatter) "--- title: x".toList).err
        = some ParseError.ErrInvalidFrontmatter ∧
      ListConversations (fun a b => a ++ '/' :: b) (fun _ => Except.ok sampleFrontmatter)
          ghostStore ⟨[], 0, 0⟩
        = some (⟨[⟨"c/a.md".toList, [], [], [], [], []⟩,
              ⟨"c/b.md".toList, "Test".toList, "2026-01-10".toList, "chatgpt".toList,
                ["mcp".toList, "golang".toList], []⟩], 3, false⟩, none) := by
  refine ⟨by decide, by decide⟩

/-! ## Searching -/

/-- Claim C16, at the failing input.  The empty query is found at index 0 of an empty
document; `calculateScore` then divides 0 by the length 0, the position score is NaN and so
is the score, which is not a number of `[0, 1]`; `SearchConversations` returns that score. -/
theorem calculateScore_empty_content (caseTable : Char → Char)
    (pathJoin : List Char → List Char → List Char)
    (yamlUnmarshal : List Char → Except YamlError Frontmatter) :
    stringsIndex (ToLower caseTable []) (ToLower caseTable []) = 0 ∧
      Count (ToLower caseTable []) (ToLower caseTable []) = 1 ∧
      calculateScore (ToLower caseTable []) (ToLower caseTable []) 0 = Float64.nan ∧
      Float64.inUnitInterval (calculateScore (ToLower caseTable []) (ToLower caseTable []) 0)
        = false ∧
      SearchConversations caseTable pathJoin yamlUnmarshal emptyDocStore ⟨[], [], 0⟩
        = some (⟨[⟨"c/empty.md".toList, [], [], Float64.nan⟩], 1⟩, none) := by
  have hscore : calculateScore [] [] 0 = Float64.nan := by
    simp [calculateScore, Count, len, Float64.ofInt, Float64.div, Float64.sub, Float64.add,
      Float64.neg, Float64.gt]
  refine ⟨rfl, rfl, hscore, ?_, ?_⟩
  · show Float64.inUnitInterval (calculateScore [] [] 0) = false
    rw [hscore]
    rfl
  · have hfile : searchFile caseTable yamlUnmarshal emptyDocStore "c/empty.md".toList []
        = some (some ⟨"c/empty.md".toList, [], [], Float64.nan⟩) := by
      have hread : emptyDocStore.Read "c/empty.md".toList = Except.ok [] := rfl
      have hsnip : extractSnippet [] 0 [] snippetContextChars = some [] := by decide
      have hparse : Parse yamlUnmarshal [] = ⟨none, [], none⟩ := rfl
      have hidx : stringsIndex (ToLower caseTable []) [] = 0 := rfl
      unfold searchFile
      simp only [hread, hidx, hparse, hsnip]
      show some (some (SearchResult.mk _ _ _ (calculateScore [] [] 0))) = _
      rw [hscore]
    have hlist : emptyDocStore.ListConversations = Except.ok ["c/empty.md".toList] := rfl
    have hsuffix : HasSuffix "c/empty.md".toList mdSuffix = true := by decide
    have hquery : ToLower caseTable [] = [] := rfl
    have hne : ¬ (([] : List Char) ≠ []) := fun h => h rfl
    unfold SearchConversations
    dsimp only
    rw [if_neg hne, if_pos (le_refl (0 : Int))]
    simp only [hlist, hquery, searchFiles, hsuffix, hfile]
    rfl

/-- In exact arithmetic the score of a non-empty content is a number of `[0, 1]`. -/
theorem calculateScore_bounds (content query : List Char) (firstIdx : Int)
    (hlen : 0 < len content) (h0 : 0 ≤ firstIdx) (h1 : firstIdx ≤ (len content : Int)) :
    Float64.inUnitInterval (calculateScore content query firstIdx) = true := by
  have hL : ((len content : Int) : ℚ) ≠ 0 := by
    have : (len content : Int) ≠ 0 := by omega
    exact_mod_cast this
  have hLpos : (0 : ℚ) < ((len content : Int) : ℚ) := by
    have : (0 : Int) < (len content : Int) := by omega
    exact_mod_cast this
  have hi0 : (0 : ℚ) ≤ (firstIdx : ℚ) := by exact_mod_cast h0
  have hi1 : (firstIdx : ℚ) ≤ ((len content : Int) : ℚ) := by exact_mod_cast h1
  have hq0 : (0 : ℚ) ≤ (firstIdx : ℚ) / ((len content : Int) : ℚ) := div_nonneg hi0 hLpos.le
  have hq1 : (firstIdx : ℚ) / ((len content : Int) : ℚ) ≤ 1 :=
    (div_le_one hLpos).mpr hi1
  have hc0 : (0 : ℚ) ≤ ((Count content query : Int) : ℚ) / 10 := by
    apply div_nonneg
    · exact_mod_cast Int.natCast_nonneg (Count content query)
    · norm_num
  unfold calculateScore
  simp only [Float64.ofInt, Float64.div, hL, if_false, Float64.sub, Float64.neg, Float64.add]
  have h10 : ¬ ((10 : ℚ) = 0) := by norm_num
  have h2 : ¬ ((2 : ℚ) = 0) := by norm_num
  simp only [h10, h2, if_false, Float64.gt]
  by_cases hgt : ((Count content query : Int) : ℚ) / 10 > 1
  · simp only [hgt, decide_True, if_true, Float64.add, Float64.div, h2, if_false,
      Float64.inUnitInterval]
    rw [decide_eq_true_iff]
    constructor
    · apply div_nonneg
      · linarith
      · norm_num
    · rw [div_le_one (by norm_num)]
      linarith
  · simp only [hgt, decide_False, Bool.false_eq_true, if_false, Float64.add, Float64.div, h2,
      Float64.inUnitInterval]
    rw [decide_eq_true_iff]
    constructor
    · apply div_nonneg
      · linarith
      · norm_num
    · rw [div_le_one (by norm_num)]
      linarith

theorem extractSnippet_panic (content query : List Char) (idx contextChars : Int)
    (h : (len content : Int) < idx - contextChars) :
    extractSnippet content idx query contextChars = none := by
  unfold extractSnippet
  have hstart : ¬ idx - contextChars < 0 := by omega
  simp only [hstart, if_false]
  by_cases hs : idx + (len query : Int) + contextChars > (len content : Int)
  · simp only [hs, if_true]
    exact if_neg (fun hc => by omega)
  · simp only [hs, if_false]
    exact if_neg (fun hc => by omega)

theorem searchFile_panic {σ : Type} (caseTable : Char → Char)
    (yamlUnmarshal : List Char → Except YamlError Frontmatter) (store : Storage σ)
    (filePath query content : List Char) (idx : Int)
    (hread : store.Read filePath = Except.ok content)
    (hidx : stringsIndex (ToLower caseTable content) query = idx)
    (hbody : (len (Parse yamlUnmarshal content).body : Int) < idx - snippetContextChars) :
    searchFile caseTable yamlUnmarshal store filePath query = none := by
  have hne : ¬ idx = -1 := by
    intro he
    rw [he] at hbody
    unfold snippetContextChars at hbody
    omega
  have hsnip := extractSnippet_panic (Parse yamlUnmarshal content).body query idx
    snippetContextChars hbody
  unfold searchFile
  simp only [hread, hidx, hne, if_false, hsnip]

theorem Parse_savedDocument_body (yamlUnmarshal : List Char → Except YamlError Frontmatter) :
    len (Parse yamlUnmarshal savedDocument).body ≤ 2 := by
  have hparse := Parse_header yamlUnmarshal savedDocument
    ("\ntitle: Hello World\ndate: 2026-01-10T14:30:00Z\nlastmod: 2026-01-10T14:30:00Z\n"
      ++ "author: chatgpt\ndescription: Hi\nslug: hello-world\nsource: chatgpt\n"
      ++ "conversation_id: conv_1768055400000000000\n").toList
    "\n\nHi".toList (by decide) (by decide) (by decide)
  rw [hparse]
  split
  · show len [] ≤ 2
    decide
  · show len (TrimSpace "\n\nHi".toList) ≤ 2
    decide

/-- Claim C18, at the failing input.  The stored conversation contains the query `source` at
byte 130 of its header and its body `Hi` is two bytes long: `searchFile` takes the snippet
window from the body with that index, `body[30:2]`, and `SearchConversations` panics instead of
returning the matching document. -/
theorem SearchConversations_header_match_panics (caseTable : Char → Char)
    (pathJoin : List Char → List Char → List Char)
    (yamlUnmarshal : List Char → Except YamlError Frontmatter) :
    stringsIndex (ToLower caseTable savedDocument) (ToLower caseTable "source".toList) = 130 ∧
      len (Parse yamlUnmarshal savedDocument).body ≤ 2 ∧
      SearchConversations caseTable pathJoin yamlUnmarshal savedStore ⟨"source".toList, [], 0⟩
        = none := by
  have hdoc : ToLower caseTable savedDocument = ToLower id savedDocument :=
    ToLower_ascii caseTable _ (by decide)
  have hquery : ToLower caseTable "source".toList = "source".toList := by
    rw [ToLower_ascii caseTable _ (by decide)]
    decide
  have hidx : stringsIndex (ToLower caseTable savedDocument) "source".toList = 130 := by
    rw [hdoc]
    decide
  have hbody := Parse_savedDocument_body yamlUnmarshal
  refine ⟨by rw [hquery]; exact hidx, hbody, ?_⟩
  have hfile : searchFile caseTable yamlUnmarshal savedStore
      "conversations/chatgpt/2026-01-10_hello-world.md".toList "source".toList = none :=
    searchFile_panic caseTable yamlUnmarshal savedStore _ _ savedDocument 130 rfl hidx
      (by unfold snippetContextChars; omega)
  have hlist : savedStore.ListConversations
      = Except.ok ["conversations/chatgpt/2026-01-10_hello-world.md".toList] := rfl
  have hsuffix : HasSuffix "conversations/chatgpt/2026-01-10_hello-world.md".toList mdSuffix
      = true := by decide
  have hne : ¬ (([] : List Char) ≠ []) := fun h => h rfl
  unfold SearchConversations
  dsimp only
  rw [if_neg hne, if_pos (le_refl (0 : Int))]
  simp only [hlist, hquery, searchFiles, hsuffix, hfile]
  rfl

/-! ## Bytes and pieces -/

theorem length_utf8EncodeRune (c : Char) : (utf8EncodeRune c).length = c.utf8Size := by
  unfold utf8EncodeRune Char.utf8Size
  by_cases h1 : c.toNat ≤ 0x7F
  · have h1v : c.val ≤ UInt32.ofNatCore 0x7F (by decide) := h1
    simp only [h1, h1v, if_true]
    rfl
  · have h1v : ¬ c.val ≤ UInt32.ofNatCore 0x7F (by decide) := h1
    by_cases h2 : c.toNat ≤ 0x7FF
    · have h2v : c.val ≤ UInt32.ofNatCore 0x7FF (by decide) := h2
      simp only [h1, h1v, h2, h2v, if_true, if_false]
      rfl
    · have h2v : ¬ c.val ≤ UInt32.ofNatCore 0x7FF (by decide) := h2
      by_cases h3 : c.toNat ≤ 0xFFFF
      · have h3v : c.val ≤ UInt32.ofNatCore 0xFFFF (by decide) := h3
        simp only [h1, h1v, h2, h2v, h3, h3v, if_true, if_false]
        rfl
      · have h3v : ¬ c.val ≤ UInt32.ofNatCore 0xFFFF (by decide) := h3
        simp only [h1, h1v, h2, h2v, h3, h3v, if_false]
        rfl

theorem length_utf8Encode (s : List Char) : (utf8Encode s).length = len s := by
  induction s with
  | nil => rfl
  | cons c cs ih =>
    have h : utf8Encode (c :: cs) = utf8EncodeRune c ++ utf8Encode cs := by
      simp [utf8Encode]
    rw [h, List.length_append, ih, length_utf8EncodeRune]
    simp [len]

theorem bytesOf_cons (p : Piece) (ps : List Piece) :
    bytesOf (p :: ps) = p.bytes ++ bytesOf ps := by
  simp [bytesOf]

theorem bytesOf_append (a b : List Piece) : bytesOf (a ++ b) = bytesOf a ++ bytesOf b := by
  simp [bytesOf]

theorem bytesOf_ofRunes (s : List Char) : bytesOf (ofRunes s) = utf8Encode s := by
  induction s with
  | nil => rfl
  | cons c cs ih =>
    have h1 : ofRunes (c :: cs) = Piece.rune c :: ofRunes cs := rfl
    have h2 : utf8Encode (c :: cs) = utf8EncodeRune c ++ utf8Encode cs := by
      simp [utf8Encode]
    rw [h1, bytesOf_cons, ih, h2]
    rfl

theorem bytesOf_map_byte (l : List Nat) : bytesOf (l.map Piece.byte) = l := by
  induction l with
  | nil => rfl
  | cons b bs ih =>
    rw [List.map_cons, bytesOf_cons, ih]
    rfl

theorem bytesOf_takeBytes (n : Nat) (ps : List Piece) :
    bytesOf (takeBytes n ps) = (bytesOf ps).take n := by
  induction ps generalizing n with
  | nil => simp [takeBytes, bytesOf]
  | cons p ps ih =>
    unfold takeBytes
    rw [bytesOf_cons, List.take_append_eq_append_take]
    split
    · rename_i h
      rw [bytesOf_cons, ih, List.take_of_length_le h]
    · rename_i h
      have h0 : n - p.bytes.length = 0 := by omega
      rw [bytesOf_map_byte, h0]
      simp

theorem bytesOf_dropBytes (n : Nat) (ps : List Piece) :
    bytesOf (dropBytes n ps) = (bytesOf ps).drop n := by
  induction ps generalizing n with
  | nil =>
    cases n with
    | zero => rfl
    | succ m => simp [dropBytes, bytesOf]
  | cons p ps ih =>
    cases n with
    | zero => rfl
    | succ m =>
      unfold dropBytes
      rw [bytesOf_cons, List.drop_append_eq_append_drop]
      split
      · rename_i h
        rw [ih, List.drop_of_length_le h]
        rfl
      · rename_i h
        have h0 : m + 1 - p.bytes.length = 0 := by omega
        rw [bytesOf_append, bytesOf_map_byte, h0]
        rfl

theorem bytesOf_sliceBytes (a b : Nat) (t : List Char) :
    bytesOf (sliceBytes a b t) = byteWindowSpec t a b := by
  unfold sliceBytes byteWindowSpec
  rw [bytesOf_takeBytes, bytesOf_dropBytes, bytesOf_ofRunes]

theorem bytes_rune_ascii (c : Char) (h : c.toNat ≤ 127) : (Piece.rune c).bytes.length = 1 := by
  show (utf8EncodeRune c).length = 1
  unfold utf8EncodeRune
  simp only [h, if_true]
  rfl

theorem takeBytes_ascii (n : Nat) (s : List Char) (h : ∀ r ∈ s, r.toNat ≤ 127) :
    takeBytes n (ofRunes s) = ofRunes (s.take n) := by
  induction s generalizing n with
  | nil => simp [takeBytes, ofRunes]
  | cons c cs ih =>
    have hc := bytes_rune_ascii c (h c (List.mem_cons_self c cs))
    have hcs : ∀ r ∈ cs, r.toNat ≤ 127 := fun r hr => h r (List.mem_cons_of_mem c hr)
    show takeBytes n (Piece.rune c :: ofRunes cs) = _
    unfold takeBytes
    rw [hc]
    cases n with
    | zero => simp [ofRunes]
    | succ m =>
      rw [if_pos (by omega), ih _ hcs]
      simp [ofRunes]

theorem dropBytes_ascii (n : Nat) (s : List Char) (h : ∀ r ∈ s, r.toNat ≤ 127) :
    dropBytes n (ofRunes s) = ofRunes (s.drop n) := by
  induction s generalizing n with
  | nil => cases n <;> simp [dropBytes, ofRunes]
  | cons c cs ih =>
    have hc := bytes_rune_ascii c (h c (List.mem_cons_self c cs))
    have hcs : ∀ r ∈ cs, r.toNat ≤ 127 := fun r hr => h r (List.mem_cons_of_mem c hr)
    cases n with
    | zero => rfl
    | succ m =>
      show dropBytes (m + 1) (Piece.rune c :: ofRunes cs) = _
      unfold dropBytes
      rw [hc, if_pos (by omega), List.drop_succ_cons]
      have hm : m + 1 - 1 = m := by omega
      rw [hm]
      exact ih m hcs

theorem sliceBytes_ascii (a b : Nat) (t : List Char) (h : ∀ r ∈ t, r.toNat ≤ 127) :
    sliceBytes a b t = ofRunes ((t.drop a).take (b - a)) := by
  unfold sliceBytes
  rw [dropBytes_ascii a t h]
  exact takeBytes_ascii _ _ (fun r hr => h r (List.mem_of_mem_drop hr))

/-! ## Snippets -/

theorem Fields_cons_space (c : Piece) (cs : List Piece) (hc : c.isSpace = true) :
    Fields (c :: cs) = Fields cs := by
  cases cs with
  | nil => simp [Fields, hc]
  | cons d ds => simp [Fields, hc]

theorem Fields_singleton (c : Piece) (hc : c.isSpace = false) : Fields [c] = [[c]] := by
  simp [Fields, hc]

theorem Fields_cons_cons_space (c d : Piece) (ds : List Piece) (hc : c.isSpace = false)
    (hd : d.isSpace = true) : Fields (c :: d :: ds) = [c] :: Fields ds := by
  simp [Fields, hc, hd]

theorem Fields_ne_nil (d : Piece) (ds : List Piece) (hd : d.isSpace = false) :
    Fields (d :: ds) ≠ [] := by
  cases ds with
  | nil => rw [Fields_singleton d hd]; simp
  | cons e es =>
    rw [Fields, if_neg (by simp [hd])]
    split
    · simp
    · split <;> simp

theorem Fields_cons_cons_nonspace (c d : Piece) (ds : List Piece) (hc : c.isSpace = false)
    (hd : d.isSpace = false) :
    ∃ f fs, Fields (d :: ds) = f :: fs ∧ Fields (c :: d :: ds) = (c :: f) :: fs := by
  cases hf : Fields (d :: ds) with
  | nil => exact absurd hf (Fields_ne_nil d ds hd)
  | cons f fs =>
    refine ⟨f, fs, rfl, ?_⟩
    rw [Fields, if_neg (by simp [hc]), if_neg (by simp [hd]), hf]

theorem Join_cons_cons (c : Piece) (f : List Piece) (fs : List (List Piece))
    (sep : List Piece) :
    Join ((c :: f) :: fs) sep = c :: Join (f :: fs) sep := by
  cases fs with
  | nil => rfl
  | cons g gs => simp [Join]

theorem rtrim_cons_nonspace (c : Piece) (cs : List Piece) (hc : c.isSpace = false) :
    ((c :: cs).reverse.dropWhile Piece.isSpace).reverse
      = c :: (cs.reverse.dropWhile Piece.isSpace).reverse := by
  rw [rtrim_cons]
  by_cases hn : (cs.reverse.dropWhile Piece.isSpace).reverse = []
  · simp [hn, hc]
  · simp [hn]

theorem rtrim_cons_space (c : Piece) (cs : List Piece) (hc : c.isSpace = true) :
    ((c :: cs).reverse.dropWhile Piece.isSpace).reverse
      = if (cs.reverse.dropWhile Piece.isSpace).reverse = [] then []
        else c :: (cs.reverse.dropWhile Piece.isSpace).reverse := by
  rw [rtrim_cons]
  simp [hc]

theorem Fields_eq_nil_iff (w : List Piece) :
    Fields w = [] ↔ (w.reverse.dropWhile Piece.isSpace).reverse = [] := by
  induction w with
  | nil => simp [Fields]
  | cons c cs ih =>
    cases hc : c.isSpace
    · rw [rtrim_cons_nonspace c cs hc]
      constructor
      · intro h
        exact absurd h (Fields_ne_nil c cs hc)
      · intro h
        simp at h
    · rw [Fields_cons_space c cs hc, rtrim_cons_space c cs hc, ih]
      by_cases hn : (cs.reverse.dropWhile Piece.isSpace).reverse = []
      · simp [hn]
      · simp [hn]

theorem Join_Fields (w : List Piece) :
    Join (Fields w) [Piece.rune ' ']
      = replaceRuns Piece.isSpace [Piece.rune ' '] true
          ((w.reverse.dropWhile Piece.isSpace).reverse) := by
  induction w with
  | nil => rfl
  | cons c cs ih =>
    cases hc : c.isSpace
    · rw [rtrim_cons_nonspace c cs hc]
      simp only [replaceRuns, hc, Bool.false_eq_true, if_false]
      cases cs with
      | nil => simp [Fields_singleton c hc, Join, replaceRuns]
      | cons d ds =>
        cases hd : d.isSpace
        · obtain ⟨f, fs, hf, hcf⟩ := Fields_cons_cons_nonspace c d ds hc hd
          rw [hcf, Join_cons_cons, ← hf, ih, rtrim_cons_nonspace d ds hd]
          simp only [replaceRuns, hd, Bool.false_eq_true, if_false]
        · rw [Fields_cons_cons_space c d ds hc hd]
          rw [Fields_cons_space d ds hd] at ih
          by_cases hn : (ds.reverse.dropWhile Piece.isSpace).reverse = []
          · have hnil : Fields ds = [] := (Fields_eq_nil_iff ds).mpr hn
            rw [hnil, rtrim_cons_space d ds hd, if_pos hn]
            simp [Join, replaceRuns]
          · rw [rtrim_cons_space d ds hd, if_neg hn] at ih ⊢
            simp only [replaceRuns, hd, if_true, Bool.false_eq_true, if_false] at ih ⊢
            rw [← ih]
            cases hf : Fields ds with
            | nil => exact absurd ((Fields_eq_nil_iff ds).mp hf) hn
            | cons f fs => simp [Join]
    · rw [Fields_cons_space c cs hc, ih, rtrim_cons_space c cs hc]
      by_cases hn : (cs.reverse.dropWhile Piece.isSpace).reverse = []
      · simp [hn, replaceRuns]
      · simp [hn, replaceRuns, hc]

theorem replaceRuns_true_eq {α : Type} (cls : α → Bool) (repl s : List α) :
    replaceRuns cls repl true s = replaceRuns cls repl false (s.dropWhile cls) := by
  induction s with
  | nil => rfl
  | cons c cs ih =>
    cases hc : cls c
    · simp [replaceRuns, List.dropWhile_cons, hc]
    · simp [replaceRuns, List.dropWhile_cons, hc, ih]

theorem Join_Fields_eq (w : List Piece) :
    Join (Fields w) [Piece.rune ' ']
      = replaceRuns Piece.isSpace [Piece.rune ' '] false
          ((w.dropWhile Piece.isSpace).rdropWhile Piece.isSpace) := by
  rw [Join_Fields, replaceRuns_true_eq, dropWhile_rtrim_comm]
  rfl

theorem replaceRuns_space_mem (inRun : Bool) (s : List Piece) (c : Piece)
    (hc : c ∈ replaceRuns Piece.isSpace [Piece.rune ' '] inRun s) (hsp : c.isSpace = true) :
    c = Piece.rune ' ' := by
  rcases mem_replaceRuns Piece.isSpace [Piece.rune ' '] inRun s c hc with h | ⟨_, h⟩
  · simpa using h
  · rw [h] at hsp
    exact Bool.noConfusion hsp

theorem replaceRuns_chain (inRun : Bool) (s : List Piece) :
    List.Chain' (fun a b => ¬ (a.isSpace = true ∧ b.isSpace = true))
        (replaceRuns Piece.isSpace [Piece.rune ' '] inRun s) ∧
      (inRun = true →
        ∀ a ∈ (replaceRuns Piece.isSpace [Piece.rune ' '] inRun s).head?, a.isSpace = false) := by
  induction s generalizing inRun with
  | nil => simp [replaceRuns]
  | cons c cs ih =>
    cases hc : c.isSpace
    · simp only [replaceRuns, hc, Bool.false_eq_true, if_false]
      refine ⟨?_, ?_⟩
      · rw [List.chain'_cons']
        refine ⟨?_, (ih false).1⟩
        intro y _ hy
        rw [hc] at hy
        exact Bool.noConfusion hy.1
      · intro _ a ha
        simp only [List.head?_cons, Option.mem_def, Option.some.injEq] at ha
        rw [← ha]
        exact hc
    · cases inRun
      · simp only [replaceRuns, hc, if_true, Bool.false_eq_true, if_false]
        refine ⟨?_, ?_⟩
        · show List.Chain' _ (Piece.rune ' ' :: replaceRuns Piece.isSpace [Piece.rune ' '] true cs)
          rw [List.chain'_cons']
          refine ⟨?_, (ih true).1⟩
          intro y hy hboth
          have := (ih true).2 rfl y hy
          rw [this] at hboth
          exact Bool.noConfusion hboth.2
        · intro h
          exact absurd h (by simp)
      · simp only [replaceRuns, hc, if_true]
        exact ⟨(ih true).1, fun _ => (ih true).2 rfl⟩

theorem Join_Fields_spec (w : List Piece) :
    Join (Fields (replaceNewlines w)) [Piece.rune ' '] = trimCollapseWhitespaceSpec w :=
  Join_Fields_eq (replaceNewlines w)

/-- Claim C19, as amended.  For every text `t`, query `q` and index with `0 <= idx` and
`idx + len(q) <= len(t)`, `extractSnippet(t, idx, q, 100)` is the window of the bytes
`t[max(0, idx-100) .. min(len(t), idx+len(q)+100))`, with the newlines turned into spaces, the
leading and trailing white space removed and every other run of white space collapsed to one
space, prefixed by `...` iff `idx > 100` and suffixed by `...` iff
`idx + len(q) + 100 < len(t)`.  The window holds exactly those bytes of the encoded text, also
when a bound falls within a rune; for an ASCII text it is the runes at those positions.  In the
cleaned window every white space rune is a space and no two of them are adjacent. -/
theorem extractSnippet_window (t q : List Char) (idx : Int) (h0 : 0 ≤ idx)
    (h1 : idx + (len q : Int) ≤ (len t : Int)) :
    extractSnippet t idx q snippetContextChars
        = some ((if idx > 100 then ofRunes "...".toList else [])
            ++ trimCollapseWhitespaceSpec
                (sliceBytes (max 0 (idx - 100)).toNat
                  (min (idx + (len q : Int) + 100) (len t : Int)).toNat t)
            ++ (if idx + (len q : Int) + 100 < (len t : Int) then ofRunes "...".toList
                else [])) ∧
      bytesOf (sliceBytes (max 0 (idx - 100)).toNat
          (min (idx + (len q : Int) + 100) (len t : Int)).toNat t)
        = byteWindowSpec t (max 0 (idx - 100)).toNat
            (min (idx + (len q : Int) + 100) (len t : Int)).toNat ∧
      ((∀ r ∈ t, r.toNat ≤ 127) →
        sliceBytes (max 0 (idx - 100)).toNat
            (min (idx + (len q : Int) + 100) (len t : Int)).toNat t
          = ofRunes ((t.drop (max 0 (idx - 100)).toNat).take
              ((min (idx + (len q : Int) + 100) (len t : Int)).toNat
                - (max 0 (idx - 100)).toNat))) ∧
      (∀ c ∈ trimCollapseWhitespaceSpec
          (sliceBytes (max 0 (idx - 100)).toNat
            (min (idx + (len q : Int) + 100) (len t : Int)).toNat t),
        c.isSpace = true → c = Piece.rune ' ') ∧
      List.Chain' (fun a b => ¬ (a.isSpace = true ∧ b.isSpace = true))
        (trimCollapseWhitespaceSpec
          (sliceBytes (max 0 (idx - 100)).toNat
            (min (idx + (len q : Int) + 100) (len t : Int)).toNat t)) := by
  refine ⟨?_, bytesOf_sliceBytes _ _ t, sliceBytes_ascii _ _ t,
    fun c hc hsp => replaceRuns_space_mem _ _ c hc hsp, (replaceRuns_chain _ _).1⟩
  have hstart : (if idx - 100 < 0 then (0 : Int) else idx - 100) = max 0 (idx - 100) := by
    split
    · rw [max_eq_left (by omega)]
    · rw [max_eq_right (by omega)]
  have hstop : (if idx + (len q : Int) + 100 > (len t : Int) then (len t : Int)
      else idx + (len q : Int) + 100) = min (idx + (len q : Int) + 100) (len t : Int) := by
    split
    · rw [min_eq_right (by omega)]
    · rw [min_eq_left (by omega)]
  have hs0 : 0 ≤ max 0 (idx - 100) := le_max_left _ _
  have hsi : max 0 (idx - 100) ≤ idx := max_le h0 (by omega)
  have hie : idx ≤ min (idx + (len q : Int) + 100) (len t : Int) :=
    le_min (by omega) (by omega)
  have hel : min (idx + (len q : Int) + 100) (len t : Int) ≤ (len t : Int) := min_le_right _ _
  have hpre : (max 0 (idx - 100) > 0) ↔ idx > 100 := by
    constructor
    · intro h
      rcases lt_max_iff.mp h with h2 | h2
      · omega
      · omega
    · intro h
      exact lt_max_iff.mpr (Or.inr (by omega))
  have hsuf : (min (idx + (len q : Int) + 100) (len t : Int) < (len t : Int))
      ↔ idx + (len q : Int) + 100 < (len t : Int) := by
    constructor
    · intro h
      rcases min_lt_iff.mp h with h2 | h2
      · exact h2
      · omega
    · intro h
      exact min_lt_iff.mpr (Or.inl h)
  unfold extractSnippet snippetContextChars
  simp only [hstart, hstop]
  rw [if_pos ⟨hs0, le_trans hsi hie, hel⟩, Join_Fields_spec]
  by_cases hp : idx > 100 <;> by_cases hq : idx + (len q : Int) + 100 < (len t : Int)
  · simp [hp, hq, hpre.mpr hp, hsuf.mpr hq]
  · simp [hp, hq, hpre.mpr hp, mt hsuf.mp hq]
  · simp [hp, hq, mt hpre.mp hp, hsuf.mpr hq]
  · simp [hp, hq, mt hpre.mp hp, mt hsuf.mp hq]

/-- The amended C19 at a text where both bounds of the window fall within a two-byte rune: the
text is `a`, sixty `é`, ` needle`, a newline and sixty `é`, the query is `needle` at byte 122.
The window starts at byte 22, the second byte of an `é`, and ends before byte 228, the second
byte of another: the snippet keeps the bytes `0xA9` and `0xC3` of the two split runes. -/
theorem extractSnippet_window_witness :
    extractSnippet ("a".toList ++ List.replicate 60 'é' ++ " needle\n".toList
          ++ List.replicate 60 'é') 122 "needle".toList snippetContextChars
      = some (ofRunes "...".toList ++ [Piece.byte 0xA9] ++ ofRunes (List.replicate 49 'é')
          ++ ofRunes " needle ".toList ++ ofRunes (List.replicate 49 'é') ++ [Piece.byte 0xC3]
          ++ ofRunes "...".toList) :=
  (extractSnippet_window ("a".toList ++ List.replicate 60 'é' ++ " needle\n".toList
      ++ List.replicate 60 'é') "needle".toList 122 (by decide) (by decide)).1.trans (by decide)

/-- Claim C19, counterexample.  For the text `" a"`, the query `a` and the index 1 the snippet
is `a`: the white space at the start of the window is removed, whereas the window with its
runs of white space collapsed to a single space is `" a"`. -/
theorem extractSnippet_drops_outer_space :
    extractSnippet " a".toList 1 "a".toList snippetContextChars = some (ofRunes "a".toList) ∧
      collapseWhitespaceSpec (sliceBytes 0 2 " a".toList) = ofRunes " a".toList := by
  refine ⟨by decide, by decide⟩

/-! ## Descriptions -/

theorem len_append (a b : List Char) : len (a ++ b) = len a + len b := by
  simp [len]

theorem len_eq_zero_iff (l : List Char) : len l = 0 ↔ l = [] := by
  cases l with
  | nil => simp [len]
  | cons c cs =>
    have hpos := Char.utf8Size_pos c
    simp only [len, List.map_cons, List.sum_cons]
    constructor
    · intro h
      omega
    · intro h
      exact absurd h (by simp)

theorem splitLines_eq_splitOn (s : List Char) : splitLines s = s.splitOn '\n' := by
  induction s with
  | nil => rfl
  | cons c cs ih =>
    have hcons : (c :: cs).splitOn '\n'
        = if (c == '\n') = true then [] :: cs.splitOn '\n'
          else (cs.splitOn '\n').modifyHead (List.cons c) :=
      List.splitOnP_cons (fun x => x == '\n') c cs
    rw [hcons]
    unfold splitLines
    rw [ih]
    by_cases hc : c = '\n'
    · simp [hc]
    · have hb : ¬ (c == '\n') = true := by simpa using hc
      rw [if_neg hc, if_neg hb]
      cases hs : cs.splitOn '\n' with
      | nil => exact absurd hs (List.splitOnP_ne_nil _ cs)
      | cons l ls => rfl

theorem HasPrefix_hash (l : List Char) :
    (!HasPrefix l ['#']) = decide (l.head? ≠ some '#') := by
  cases l with
  | nil => rfl
  | cons a as =>
    by_cases ha : a = '#'
    · subst ha
      simp [HasPrefix, List.isPrefixOf]
    · have hne : ¬ '#' = a := fun h => ha h.symm
      simp [HasPrefix, List.isPrefixOf, ha, hne]

theorem firstTextLine_eq (content : List Char) :
    firstTextLine content
      = ((splitLines content).map TrimSpace).find?
          (fun l => decide (l ≠ []) && !HasPrefix l ['#']) := by
  unfold firstTextLine
  rw [splitLines_eq_splitOn]
  have hf : (fun l : List Char => decide (l ≠ []) && !HasPrefix l ['#'])
      = (fun l : List Char => decide (l ≠ []) && decide (l.head? ≠ some '#')) := by
    funext l
    rw [HasPrefix_hash]
  rw [hf]
  rfl

theorem extractFromLines_eq (maxLen : Nat) (lines : List (List Char)) :
    extractFromLines maxLen lines =
      match (lines.map TrimSpace).find? (fun l => decide (l ≠ []) && !HasPrefix l ['#']) with
      | none => []
      | some l =>
        if len l ≤ maxLen then ofRunes l
        else takeBytes maxLen (ofRunes l) ++ ofRunes ['.', '.', '.'] := by
  induction lines with
  | nil => rfl
  | cons line rest ih =>
    unfold extractFromLines
    simp only [List.map_cons, List.find?_cons]
    by_cases hlen : len (TrimSpace line) = 0
    · have hnil : TrimSpace line = [] := (len_eq_zero_iff _).mp hlen
      simp only [hlen, if_true, hnil]
      simpa using ih
    · have hne : TrimSpace line ≠ [] := fun h => hlen ((len_eq_zero_iff _).mpr h)
      simp only [hlen, if_false]
      cases hp : HasPrefix (TrimSpace line) ['#']
      · simp only [Bool.false_eq_true, if_false, hne, ne_eq, not_false_eq_true, decide_True,
          Bool.not_false, Bool.and_self]
        by_cases hm : len (TrimSpace line) > maxLen
        · rw [if_pos hm, if_neg (by omega)]
        · rw [if_neg hm, if_pos (by omega)]
      · simp only [if_true, Bool.not_true, Bool.and_false]
        exact ih

theorem ExtractDescription_eq (content : List Char) (maxLen : Nat) :
    ExtractDescription content maxLen =
      (match firstTextLine content with
       | none => []
       | some l =>
         if len l ≤ maxLen then ofRunes l
         else takeBytes maxLen (ofRunes l) ++ ofRunes "...".toList) := by
  rw [firstTextLine_eq]
  unfold ExtractDescription
  exact extractFromLines_eq maxLen _

theorem takeBytes_head? (n : Nat) (a : Char) (as : List Char) (p : Piece)
    (hp : (takeBytes n (ofRunes (a :: as))).head? = some p) :
    p = Piece.rune a ∨ ∃ b, p = Piece.byte b := by
  have h1 : ofRunes (a :: as) = Piece.rune a :: ofRunes as := rfl
  rw [h1] at hp
  unfold takeBytes at hp
  split at hp
  · simp only [List.head?_cons, Option.some.injEq] at hp
    exact Or.inl hp.symm
  · right
    cases hb : List.take n (Piece.rune a).bytes with
    | nil => simp [hb] at hp
    | cons b bs =>
      rw [hb] at hp
      simp only [List.map_cons, List.head?_cons, Option.some.injEq] at hp
      exact ⟨b, hp.symm⟩

/-- Claim C20.  `ExtractDescription(content, maxLen)` is decided by the first line (split on
the newline) whose white-space-trimmed form is not empty and does not start with `#`: it is
that trimmed line when its length is at most `maxLen` bytes, its first `maxLen` bytes followed
by `...` otherwise (byte for byte, also when byte `maxLen` falls within a rune), and empty when
no line qualifies; the result is at most `maxLen + 3` bytes long and never starts with `#`.  On
the content of `TestExtractDescription` the title line is passed over; a line `héllo wörld`
between white space is cut after the first byte of `é` for `maxLen = 2` and returned whole for
`maxLen = 13`; an ideographic space and a no-break space around a line are trimmed; and `éé`
cut at one byte is the four bytes `c3 2e 2e 2e`. -/
theorem ExtractDescription_first_line (content : List Char) (maxLen : Nat) :
    ExtractDescription content maxLen =
        (match firstTextLine content with
         | none => []
         | some l =>
           if len l ≤ maxLen then ofRunes l
           else takeBytes maxLen (ofRunes l) ++ ofRunes "...".toList) ∧
      bytesOf (ExtractDescription content maxLen) =
        (match firstTextLine content with
         | none => []
         | some l =>
           if len l ≤ maxLen then utf8Encode l
           else (utf8Encode l).take maxLen ++ utf8Encode "...".toList) ∧
      (bytesOf (ExtractDescription content maxLen)).length ≤ maxLen + 3 ∧
      (ExtractDescription content maxLen).head? ≠ some (Piece.rune '#') ∧
      ExtractDescription sampleContent 50
        = ofRunes "**User:** How do I build an MCP server?".toList ∧
      ExtractDescription sampleContent 10 = ofRunes "**User:** ...".toList ∧
      ExtractDescription "# T\n \t héllo wörld \r\nnext".toList 2
        = [Piece.rune 'h', Piece.byte 0xC3, Piece.rune '.', Piece.rune '.', Piece.rune '.'] ∧
      ExtractDescription "# T\n \t héllo wörld \r\nnext".toList 13
        = ofRunes "héllo wörld".toList ∧
      ExtractDescription "\u3000text\u00a0\n# h".toList 10 = ofRunes "text".toList ∧
      bytesOf (ExtractDescription "éé".toList 1) = [0xC3, 0x2E, 0x2E, 0x2E] := by
  have heq := ExtractDescription_eq content maxLen
  have hbytes : bytesOf (ExtractDescription content maxLen) =
      (match firstTextLine content with
       | none => []
       | some l =>
         if len l ≤ maxLen then utf8Encode l
         else (utf8Encode l).take maxLen ++ utf8Encode "...".toList) := by
    rw [heq]
    cases hf : firstTextLine content with
    | none => rfl
    | some l =>
      simp only
      split
      · exact bytesOf_ofRunes l
      · rw [bytesOf_append, bytesOf_takeBytes, bytesOf_ofRunes, bytesOf_ofRunes]
  refine ⟨heq, hbytes, ?_, ?_, by decide, by decide, by decide, by decide, by decide,
    by decide⟩
  · rw [hbytes]
    cases hf : firstTextLine content with
    | none => simp
    | some l =>
      simp only
      split
      · rw [length_utf8Encode]
        omega
      · rw [List.length_append]
        have h1 := List.length_take_le maxLen (utf8Encode l)
        have h2 : (utf8Encode "...".toList).length = 3 := by decide
        omega
  · rw [heq]
    cases hf : firstTextLine content with
    | none => simp
    | some l =>
      have hpred := List.find?_some hf
      have hl : l.head? ≠ some '#' := by
        have := (Bool.and_eq_true _ _).mp hpred
        simpa using this.2
      simp only
      split
      · cases l with
        | nil => simp [ofRunes]
        | cons a as =>
          intro hh
          apply hl
          have h1 : ofRunes (a :: as) = Piece.rune a :: ofRunes as := rfl
          rw [h1] at hh
          simp only [List.head?_cons, Option.some.injEq, Piece.rune.injEq] at hh
          rw [hh]
          rfl
      · cases l with
        | nil =>
          intro hh
          have hnil : takeBytes maxLen (ofRunes []) = [] := rfl
          rw [hnil] at hh
          revert hh
          decide
        | cons a as =>
          cases ht : takeBytes maxLen (ofRunes (a :: as)) with
          | nil => decide
          | cons x xs =>
            have hx : (takeBytes maxLen (ofRunes (a :: as))).head? = some x := by rw [ht]; rfl
            intro hh
            simp only [List.cons_append, List.head?_cons, Option.some.injEq] at hh
            rcases takeBytes_head? maxLen a as x hx with h | ⟨b, h⟩
            · apply hl
              rw [h] at hh
              simp only [Piece.rune.injEq] at hh
              rw [hh]
              rfl
            · rw [h] at hh
              exact Piece.noConfusion hh

/-! ## The snippet window of `searchFile` -/

/-- For an index and a context that are not negative, the slice expression of `extractSnippet`
is in range exactly when the start of the window, `idx - contextChars`, is not beyond the end
of the content. -/
theorem extractSnippet_isSome_iff (content query : List Char) (idx contextChars : Int)
    (h0 : 0 ≤ idx) (hc : 0 ≤ contextChars) :
    (extractSnippet content idx query contextChars).isSome = true
      ↔ idx - contextChars ≤ (len content : Int) := by
  constructor
  · intro h
    by_contra hlt
    rw [extractSnippet_panic content query idx contextChars (by omega)] at h
    exact Bool.noConfusion h
  · intro h
    unfold extractSnippet
    by_cases ha : idx - contextChars < 0 <;>
      by_cases hb : idx + (len query : Int) + contextChars > (len content : Int)
    · simp only [ha, hb, if_true]
      rw [if_pos ⟨le_refl _, by omega, le_refl _⟩]
      rfl
    · simp only [ha, hb, if_true, if_false]
      rw [if_pos ⟨le_refl _, by omega, by omega⟩]
      rfl
    · simp only [ha, hb, if_true, if_false]
      rw [if_pos ⟨by omega, by omega, le_refl _⟩]
      rfl
    · simp only [ha, hb, if_false]
      rw [if_pos ⟨by omega, by omega, by omega⟩]
      rfl

/-- Claim C21, at the failing input.  The stored conversation is read, its lower-cased raw
content contains the query `source` at byte 130, in the header, and its parsed body is at most
two bytes long: the window `searchFile` takes from the body starts at byte 30, beyond the end
of the body, the slice expression of `extractSnippet` is out of range and `searchFile` panics
instead of returning `found = true`. -/
theorem searchFile_window_out_of_range (caseTable : Char → Char)
    (yamlUnmarshal : List Char → Except YamlError Frontmatter) :
    savedStore.Read "conversations/chatgpt/2026-01-10_hello-world.md".toList
        = Except.ok savedDocument ∧
      stringsIndex (ToLower caseTable savedDocument) "source".toList = 130 ∧
      (len (Parse yamlUnmarshal savedDocument).body : Int) < 130 - snippetContextChars ∧
      extractSnippet (Parse yamlUnmarshal savedDocument).body 130 "source".toList
          snippetContextChars = none ∧
      searchFile caseTable yamlUnmarshal savedStore
          "conversations/chatgpt/2026-01-10_hello-world.md".toList "source".toList = none := by
  have hidx : stringsIndex (ToLower caseTable savedDocument) "source".toList = 130 := by
    rw [ToLower_ascii caseTable _ (by decide)]
    decide
  have hbody : (len (Parse yamlUnmarshal savedDocument).body : Int)
      < 130 - snippetContextChars := by
    have h := Parse_savedDocument_body yamlUnmarshal
    unfold snippetContextChars
    omega
  exact ⟨rfl, hidx, hbody, extractSnippet_panic _ _ _ _ hbody,
    searchFile_panic caseTable yamlUnmarshal savedStore _ _ savedDocument 130 rfl hidx hbody⟩

end ChatHub
